import Mathlib

/-!
Verification of the `permutation_compression` repository (`src/lib.rs`,
`src/lr_array.rs`): a shallow embedding of the LR array (a fixed-size bit
vector with a flat segment tree of set-bit counts supporting rank/select
on unset bits), the Lehmer transform, and the block-framing codec, with
proofs of the specified properties.

Machine integers (`usize`, `u32`, `u8`) are modelled as `Nat`; the Rust
arrays `vals : BitVec` and `f : Vec<usize>` are modelled as total
functions `Nat → Bool` / `Nat → Nat` (all accesses performed by the code
stay in bounds, so the total-function semantics agrees with the
panicking-index semantics on every reachable execution).  Rust panics
(`panic!`, `assert!`, out-of-bounds slice indexing) are modelled by
`Option`, with `none` for a panic.  `while` loops are modelled by
structurally recursive functions on an explicit fuel argument; each
public entry point passes a fuel that is provably at least the number of
iterations the Rust loop performs, so the embedding agrees with the code.
-/

set_option maxHeartbeats 1600000
set_option maxRecDepth 100000

/-- Number of indices `i` in the interval `[lo, lo+len)` with `vals i = bv`. -/
def countIn (vals : Nat → Bool) (bv : Bool) (lo : Nat) : Nat → Nat
  | 0 => 0
  | len + 1 => (if vals lo = bv then 1 else 0) + countIn vals bv (lo + 1) len

/-- Number of indices `i` in the half-open interval `[lo, hi)` with `vals i = bv`.
With `bv = true` this is `popcount(V[lo..hi])`, with `bv = false` the naive
count of unset bits of `V` in `[lo, hi)`. -/
def countB (vals : Nat → Bool) (bv : Bool) (lo hi : Nat) : Nat :=
  countIn vals bv lo (hi - lo)

theorem countIn_add (vals : Nat → Bool) (bv : Bool) (m n : Nat) :
    ∀ lo, countIn vals bv lo (m + n)
      = countIn vals bv lo m + countIn vals bv (lo + m) n := by
  induction m with
  | zero => intro lo; simp [countIn]
  | succ m ih =>
    intro lo
    have h1 : m + 1 + n = (m + n) + 1 := by omega
    have h2 : lo + 1 + m = lo + (m + 1) := by omega
    rw [h1]
    simp only [countIn, ih (lo + 1), h2]
    omega

theorem countB_self (vals : Nat → Bool) (bv : Bool) (lo : Nat) :
    countB vals bv lo lo = 0 := by
  simp [countB, countIn]

theorem countB_of_le (vals : Nat → Bool) (bv : Bool) {lo hi : Nat} (h : hi ≤ lo) :
    countB vals bv lo hi = 0 := by
  have : hi - lo = 0 := by omega
  simp [countB, this, countIn]

theorem countB_split (vals : Nat → Bool) (bv : Bool) {lo m hi : Nat}
    (h1 : lo ≤ m) (h2 : m ≤ hi) :
    countB vals bv lo hi = countB vals bv lo m + countB vals bv m hi := by
  unfold countB
  have h3 : hi - lo = (m - lo) + (hi - m) := by omega
  rw [h3, countIn_add]
  have h4 : lo + (m - lo) = m := by omega
  rw [h4]

theorem countB_single (vals : Nat → Bool) (bv : Bool) (i : Nat) :
    countB vals bv i (i + 1) = if vals i = bv then 1 else 0 := by
  simp [countB, countIn]

theorem countIn_le (vals : Nat → Bool) (bv : Bool) (len : Nat) :
    ∀ lo, countIn vals bv lo len ≤ len := by
  induction len with
  | zero => intro lo; simp [countIn]
  | succ len ih =>
    intro lo
    have := ih (lo + 1)
    simp only [countIn]
    split <;> omega

theorem countB_le (vals : Nat → Bool) (bv : Bool) (lo hi : Nat) :
    countB vals bv lo hi ≤ hi - lo :=
  countIn_le vals bv (hi - lo) lo

theorem countIn_true_add_false (vals : Nat → Bool) (len : Nat) :
    ∀ lo, countIn vals true lo len + countIn vals false lo len = len := by
  induction len with
  | zero => intro lo; simp [countIn]
  | succ len ih =>
    intro lo
    have := ih (lo + 1)
    simp only [countIn]
    cases h : vals lo <;> simp [h] <;> omega

theorem countB_true_add_false (vals : Nat → Bool) (lo hi : Nat) :
    countB vals true lo hi + countB vals false lo hi = hi - lo :=
  countIn_true_add_false vals (hi - lo) lo

theorem countIn_congr {vals vals' : Nat → Bool} (bv : Bool) (len : Nat) :
    ∀ lo, (∀ i, lo ≤ i → i < lo + len → vals i = vals' i) →
      countIn vals bv lo len = countIn vals' bv lo len := by
  induction len with
  | zero => intro lo _; simp [countIn]
  | succ len ih =>
    intro lo h
    simp only [countIn]
    rw [h lo (Nat.le_refl lo) (by omega), ih (lo + 1) (fun i h1 h2 => h i (by omega) (by omega))]

theorem countB_congr {vals vals' : Nat → Bool} (bv : Bool) {lo hi : Nat}
    (h : ∀ i, lo ≤ i → i < hi → vals i = vals' i) :
    countB vals bv lo hi = countB vals' bv lo hi := by
  unfold countB
  exact countIn_congr bv (hi - lo) lo (fun i h1 h2 => h i h1 (by omega))

theorem countB_update_outside (vals : Nat → Bool) (bv : Bool) {n lo hi : Nat}
    (h : n < lo ∨ hi ≤ n) :
    countB (fun j => if j = n then true else vals j) bv lo hi = countB vals bv lo hi := by
  apply countB_congr
  intro i h1 h2
  have : i ≠ n := by omega
  simp [this]

theorem countB_three (vals : Nat → Bool) (bv : Bool) {lo n hi : Nat}
    (h1 : lo ≤ n) (h2 : n < hi) :
    countB vals bv lo hi
      = countB vals bv lo n + countB vals bv n (n + 1) + countB vals bv (n + 1) hi := by
  rw [countB_split vals bv h1 (by omega : n ≤ hi)]
  rw [countB_split vals bv (by omega : n ≤ n + 1) (by omega : n + 1 ≤ hi)]
  omega

theorem countB_update_true (vals : Nat → Bool) {n lo hi : Nat}
    (h1 : lo ≤ n) (h2 : n < hi) (hv : vals n = false) :
    countB (fun j => if j = n then true else vals j) true lo hi
      = countB vals true lo hi + 1 := by
  rw [countB_three (fun j => if j = n then true else vals j) true h1 h2,
      countB_three vals true h1 h2,
      countB_update_outside vals true (Or.inr (Nat.le_refl n)),
      countB_update_outside vals true (Or.inl (Nat.lt_succ_self n)),
      countB_single, countB_single, hv]
  simp
  omega

theorem countB_update_false (vals : Nat → Bool) {n lo hi : Nat}
    (h1 : lo ≤ n) (h2 : n < hi) (hv : vals n = false) :
    countB (fun j => if j = n then true else vals j) false lo hi + 1
      = countB vals false lo hi := by
  rw [countB_three (fun j => if j = n then true else vals j) false h1 h2,
      countB_three vals false h1 h2,
      countB_update_outside vals false (Or.inr (Nat.le_refl n)),
      countB_update_outside vals false (Or.inl (Nat.lt_succ_self n)),
      countB_single, countB_single, hv]
  simp
  omega

theorem countB_false_pos (vals : Nat → Bool) {n lo hi : Nat}
    (h1 : lo ≤ n) (h2 : n < hi) (hv : vals n = false) :
    1 ≤ countB vals false lo hi := by
  rw [countB_three vals false h1 h2, countB_single, hv]
  simp
  omega

theorem countB_false_unique (vals : Nat → Bool) {i j : Nat}
    (hi : vals i = false) (hj : vals j = false)
    (h : countB vals false 0 i = countB vals false 0 j) : i = j := by
  rcases Nat.lt_trichotomy i j with hlt | heq | hgt
  · exfalso
    have hs := countB_split vals false (Nat.zero_le i) (Nat.le_of_lt hlt)
    have hp := countB_false_pos vals (Nat.le_refl i) hlt hi
    omega
  · exact heq
  · exfalso
    have hs := countB_split vals false (Nat.zero_le j) (Nat.le_of_lt hgt)
    have hp := countB_false_pos vals (Nat.le_refl j) hgt hj
    omega

/-- Heap-order descendant relation on segment-tree node indices: `desc t j`
holds when node `j` lies in the subtree rooted at node `t` (children of node
`t` are `t*2+1` and `t*2+2`, as in `lr_array.rs`). -/
def desc (t j : Nat) : Prop := ∃ d, (j + 1) / 2 ^ d = t + 1

theorem desc_refl (t : Nat) : desc t t := ⟨0, by simp⟩

theorem desc_left (t : Nat) : desc t (t * 2 + 1) := ⟨1, by simp [pow_one]; omega⟩

theorem desc_right (t : Nat) : desc t (t * 2 + 2) := ⟨1, by simp [pow_one]; omega⟩

theorem desc_trans {t u j : Nat} (h1 : desc t u) (h2 : desc u j) : desc t j := by
  obtain ⟨d, hd⟩ := h1
  obtain ⟨e, he⟩ := h2
  refine ⟨e + d, ?_⟩
  rw [pow_add, ← Nat.div_div_eq_div_mul, he, hd]

theorem desc_le {t j : Nat} (h : desc t j) : t ≤ j := by
  obtain ⟨d, hd⟩ := h
  have := Nat.div_le_self (j + 1) (2 ^ d)
  omega

theorem desc_sibling {t j : Nat} (h1 : desc (t * 2 + 1) j) (h2 : desc (t * 2 + 2) j) :
    False := by
  obtain ⟨d, hd⟩ := h1
  obtain ⟨e, he⟩ := h2
  rcases Nat.le_total d e with hle | hle
  · have hexp : d + (e - d) = e := by omega
    have h3 : (j + 1) / 2 ^ e = (j + 1) / 2 ^ d / 2 ^ (e - d) := by
      rw [Nat.div_div_eq_div_mul, ← pow_add, hexp]
    rw [h3, hd] at he
    rcases Nat.eq_or_lt_of_le hle with rfl | hlt
    · have h0 : d - d = 0 := by omega
      rw [h0, pow_zero, Nat.div_one] at he
      omega
    · have h4 : 2 ^ 1 ≤ 2 ^ (e - d) := Nat.pow_le_pow_right (by omega) (by omega)
      have h5 : (t * 2 + 1 + 1) / 2 ^ (e - d) ≤ (t * 2 + 1 + 1) / 2 ^ 1 :=
        Nat.div_le_div_left h4 (by omega)
      rw [he, pow_one] at h5
      omega
  · have hexp : e + (d - e) = d := by omega
    have h3 : (j + 1) / 2 ^ d = (j + 1) / 2 ^ e / 2 ^ (d - e) := by
      rw [Nat.div_div_eq_div_mul, ← pow_add, hexp]
    rw [h3, he] at hd
    rcases Nat.eq_or_lt_of_le hle with rfl | hlt
    · have h0 : e - e = 0 := by omega
      rw [h0, pow_zero, Nat.div_one] at hd
      omega
    · have h4 : 2 ^ 1 ≤ 2 ^ (d - e) := Nat.pow_le_pow_right (by omega) (by omega)
      have h5 : (t * 2 + 2 + 1) / 2 ^ (d - e) ≤ (t * 2 + 2 + 1) / 2 ^ 1 :=
        Nat.div_le_div_left h4 (by omega)
      rw [hd, pow_one] at h5
      omega

theorem not_desc_left_self (t : Nat) : ¬ desc (t * 2 + 1) t := by
  intro h
  have := desc_le h
  omega

theorem not_desc_right_self (t : Nat) : ¬ desc (t * 2 + 2) t := by
  intro h
  have := desc_le h
  omega

/-- Model of the `LRArray` struct (src/lr_array.rs).  `vals` is the bit
vector `V` (logical length `total_bits`), `f` the flat segment-tree array
of set-bit counts (logical length `2 * total_bits`); both are modelled as
total functions, which agrees with the Rust arrays because every access the
code performs is in bounds. -/
structure LRArray where
  total_bits : Nat
  total_set_bits : Nat
  vals : Nat → Bool
  f : Nat → Nat

/-- `LRArray::new(size)`. -/
def LRArray.new (size : Nat) : LRArray :=
  { total_bits := size, total_set_bits := 0, vals := fun _ => false, f := fun _ => 0 }

/-- `LRArray::unset_bits()`. -/
def LRArray.unset_bits (a : LRArray) : Nat := a.total_bits - a.total_set_bits

/-- `LRArray::set_bits()`. -/
def LRArray.set_bits (a : LRArray) : Nat := a.total_set_bits

/-- The Rust statement `self.f[i] += 1`. -/
def updF (a : LRArray) (i : Nat) : LRArray :=
  { a with f := fun j => if j = i then a.f j + 1 else a.f j }

/-- The common tail of `set_nth_bit` / `set_kth_unset_bit` after the
descent: `self.vals.set(n, true); self.total_set_bits += 1`. -/
def setBitState (a : LRArray) (n : Nat) : LRArray :=
  { a with vals := fun j => if j = n then true else a.vals j,
           total_set_bits := a.total_set_bits + 1 }

/-- The `while` loop of `unset_before` (src/lr_array.rs:69-94) followed by
the final width-≤-2 step.  Arguments after `fuel`: `curr_start`,
`curr_stop`, `f_idx`, `num_bits_before`.  `fuel` bounds the number of loop
iterations; all calls pass `fuel ≥ curr_stop - curr_start`, which is
sufficient because the width strictly decreases, so the fuel-0 case (the
leaf step) is reached only at width ≤ 2, exactly as in the Rust loop. -/
def unsetBeforeGo (a : LRArray) (n : Nat) : Nat → Nat → Nat → Nat → Nat → Nat
  | 0, s, _, _, acc =>
      if s < n ∧ a.vals (n - 1) = false then acc + 1 else acc
  | fuel + 1, s, e, f_idx, acc =>
      if 2 < e - s then
        if n < s + (e - s) / 2 then
          unsetBeforeGo a n fuel s (e - (e - s) / 2) (f_idx * 2 + 1) acc
        else
          unsetBeforeGo a n fuel (s + (e - s) / 2) e (f_idx * 2 + 2)
            (acc + ((e - s) / 2 - a.f (f_idx * 2 + 1)))
      else
        if s < n ∧ a.vals (n - 1) = false then acc + 1 else acc

/-- `unset_before` (src/lr_array.rs:58-95). -/
def LRArray.unset_before (a : LRArray) (n : Nat) : Nat :=
  if a.total_bits ≤ n then a.unset_bits
  else unsetBeforeGo a n a.total_bits 0 a.total_bits 0 0

/-- The `while` loop of `set_nth_bit` (src/lr_array.rs:108-125) followed by
the final bit write.  The node counter `f[f_idx]` has already been
incremented by the caller when the loop body runs. -/
def setNthGo (n : Nat) : Nat → LRArray → Nat → Nat → Nat → LRArray
  | 0, a, _, _, _ => setBitState a n
  | fuel + 1, a, s, e, f_idx =>
      if 2 < e - s then
        if n < s + (e - s) / 2 then
          setNthGo n fuel (updF a (f_idx * 2 + 1)) s (e - (e - s) / 2) (f_idx * 2 + 1)
        else
          setNthGo n fuel (updF a (f_idx * 2 + 2)) (s + (e - s) / 2) e (f_idx * 2 + 2)
      else
        setBitState a n

/-- `set_nth_bit` (src/lr_array.rs:97-130): returns `true` and leaves the
state unchanged when bit `n` is already set; `none` models the panic of
`self.vals[n]` on an out-of-range index. -/
def LRArray.set_nth_bit (a : LRArray) (n : Nat) : Option (Bool × LRArray) :=
  if n < a.total_bits then
    if a.vals n then some (true, a)
    else some (false, setNthGo n a.total_bits (updF a 0) 0 a.total_bits 0)
  else none

/-- The width-≤-2 tail of `set_kth_unset_bit` (src/lr_array.rs:172-183). -/
def leafSelect (a : LRArray) (k s : Nat) : Nat × LRArray :=
  let idx := if k = 1 ∨ a.vals s = true then s + 1 else s
  (idx, setBitState a idx)

/-- The `while` loop of `set_kth_unset_bit` (src/lr_array.rs:147-170)
followed by the leaf step.  Arguments after `fuel` and the state: `k`,
`curr_start`, `curr_stop`, `f_idx`. -/
def setKthGo : Nat → LRArray → Nat → Nat → Nat → Nat → Nat × LRArray
  | 0, a, k, s, _, _ => leafSelect a k s
  | fuel + 1, a, k, s, e, f_idx =>
      if 2 < e - s then
        if k < (e - s) / 2 - a.f (f_idx * 2 + 1) then
          setKthGo fuel (updF a (f_idx * 2 + 1)) k s (e - (e - s) / 2) (f_idx * 2 + 1)
        else
          setKthGo fuel (updF a (f_idx * 2 + 2)) (k - ((e - s) / 2 - a.f (f_idx * 2 + 1)))
            (s + (e - s) / 2) e (f_idx * 2 + 2)
      else
        leafSelect a k s

/-- `set_kth_unset_bit` (src/lr_array.rs:132-184); `none` models the
`panic!` raised when `k ≥ self.unset_bits()`. -/
def LRArray.set_kth_unset_bit (a : LRArray) (k : Nat) : Option (Nat × LRArray) :=
  if a.unset_bits ≤ k then none
  else some (setKthGo a.total_bits (updF a 0) k 0 a.total_bits 0)

/-- Segment-tree counter invariant.  `fInv vals f fuel s e b f_idx` states
that the counter at node `f_idx` — reached by a descent that narrowed the
tracked range to `[s, e)` — equals the set-bit count of `vals` over the
node's attribution interval `[s, b)` (the set of bit indices whose descents
pass through this node; `b ∈ {e - 1, e}`), and recursively the same for
both children while the tracked range is wider than 2.  The `fuel` index
always equals the one used by the operation walking the same node. -/
def fInv (vals : Nat → Bool) (f : Nat → Nat) : Nat → Nat → Nat → Nat → Nat → Prop
  | 0, s, e, b, f_idx =>
      b ≤ e ∧ e ≤ b + 1 ∧ f f_idx = countB vals true s b
  | fuel + 1, s, e, b, f_idx =>
      b ≤ e ∧ e ≤ b + 1 ∧ f f_idx = countB vals true s b ∧
      (2 < e - s →
        fInv vals f fuel s (e - (e - s) / 2) (s + (e - s) / 2) (f_idx * 2 + 1) ∧
        fInv vals f fuel (s + (e - s) / 2) e b (f_idx * 2 + 2))

theorem fInv_node {vals : Nat → Bool} {f : Nat → Nat} {fuel s e b f_idx : Nat}
    (h : fInv vals f fuel s e b f_idx) :
    b ≤ e ∧ e ≤ b + 1 ∧ f f_idx = countB vals true s b := by
  cases fuel with
  | zero => exact h
  | succ fuel => exact ⟨h.1, h.2.1, h.2.2.1⟩

theorem fInv_children {vals : Nat → Bool} {f : Nat → Nat} {fuel s e b f_idx : Nat}
    (h : fInv vals f (fuel + 1) s e b f_idx) (hw : 2 < e - s) :
    fInv vals f fuel s (e - (e - s) / 2) (s + (e - s) / 2) (f_idx * 2 + 1) ∧
    fInv vals f fuel (s + (e - s) / 2) e b (f_idx * 2 + 2) :=
  h.2.2.2 hw

theorem fInv_mk {vals : Nat → Bool} {f : Nat → Nat} {fuel s e b f_idx : Nat}
    (h1 : b ≤ e) (h2 : e ≤ b + 1) (h3 : f f_idx = countB vals true s b)
    (h4 : 2 < e - s →
      fInv vals f fuel s (e - (e - s) / 2) (s + (e - s) / 2) (f_idx * 2 + 1) ∧
      fInv vals f fuel (s + (e - s) / 2) e b (f_idx * 2 + 2)) :
    fInv vals f (fuel + 1) s e b f_idx :=
  ⟨h1, h2, h3, h4⟩

/-- The midpoint of an internal node stays within the attribution interval. -/
theorem mid_le_b {s e b : Nat} (h1 : b ≤ e) (h2 : e ≤ b + 1) (hw : 2 < e - s) :
    s + (e - s) / 2 ≤ b := by
  omega

/-- `fInv` only depends on `vals` inside `[s, b)` and on `f` inside the
subtree of `f_idx`. -/
theorem fInv_congr {vals vals' : Nat → Bool} {f f' : Nat → Nat} {fuel : Nat} :
    ∀ s e b f_idx,
      fInv vals f fuel s e b f_idx →
      (∀ i, s ≤ i → i < b → vals i = vals' i) →
      (∀ j, desc f_idx j → f j = f' j) →
      fInv vals' f' fuel s e b f_idx := by
  induction fuel with
  | zero =>
    intro s e b f_idx h hv hf
    refine ⟨h.1, h.2.1, ?_⟩
    rw [← hf f_idx (desc_refl f_idx), h.2.2]
    exact countB_congr true hv
  | succ fuel ih =>
    intro s e b f_idx h hv hf
    obtain ⟨h1, h2, h3, h4⟩ := h
    refine ⟨h1, h2, ?_, ?_⟩
    · rw [← hf f_idx (desc_refl f_idx), h3]
      exact countB_congr true hv
    · intro hw
      have hmid : s + (e - s) / 2 ≤ b := mid_le_b h1 h2 hw
      obtain ⟨hl, hr⟩ := h4 hw
      constructor
      · exact ih s (e - (e - s) / 2) (s + (e - s) / 2) (f_idx * 2 + 1) hl
          (fun i hi1 hi2 => hv i hi1 (by omega))
          (fun j hj => hf j (desc_trans (desc_left f_idx) hj))
      · exact ih (s + (e - s) / 2) e b (f_idx * 2 + 2) hr
          (fun i hi1 hi2 => hv i (by omega) hi2)
          (fun j hj => hf j (desc_trans (desc_right f_idx) hj))

theorem countIn_const_false (len : Nat) :
    ∀ lo, countIn (fun _ => false) true lo len = 0 := by
  induction len with
  | zero => intro lo; simp [countIn]
  | succ len ih => intro lo; simp [countIn, ih]

theorem fInv_const_false (fuel : Nat) :
    ∀ s e b f_idx, b ≤ e → e ≤ b + 1 →
      fInv (fun _ => false) (fun _ => 0) fuel s e b f_idx := by
  induction fuel with
  | zero =>
    intro s e b f_idx h1 h2
    exact ⟨h1, h2, (countIn_const_false _ _).symm⟩
  | succ fuel ih =>
    intro s e b f_idx h1 h2
    refine ⟨h1, h2, (countIn_const_false _ _).symm, ?_⟩
    intro hw
    exact ⟨ih _ _ _ _ (by omega) (by omega), ih _ _ _ _ h1 h2⟩

/-- The full LRArray data-structure invariant: `total_set_bits` is the
popcount of `V`, and the segment tree `f` is correct for `V`. -/
def LRInv (a : LRArray) : Prop :=
  a.total_set_bits = countB a.vals true 0 a.total_bits ∧
  fInv a.vals a.f a.total_bits 0 a.total_bits a.total_bits 0

theorem LRInv_new (size : Nat) : LRInv (LRArray.new size) := by
  constructor
  · exact (countIn_const_false _ _).symm
  · exact fInv_const_false size 0 size size 0 (Nat.le_refl size) (by omega)

/-- The descent of `unset_before` accumulates exactly the number of unset
bits in `[s, n)`, for any node whose subtree satisfies `fInv` and whose
attribution interval contains `n`. -/
theorem unsetBeforeGo_spec {a : LRArray} {n : Nat} :
    ∀ fuel s e b f_idx acc,
      e - s ≤ fuel →
      s ≤ n → n < b →
      fInv a.vals a.f fuel s e b f_idx →
      unsetBeforeGo a n fuel s e f_idx acc = acc + countB a.vals false s n := by
  intro fuel
  induction fuel with
  | zero =>
    intro s e b f_idx acc hfuel hsn hnb hinv
    have hnode := fInv_node hinv
    exact ((by omega : False)).elim
  | succ fuel ih =>
    intro s e b f_idx acc hfuel hsn hnb hinv
    have hnode := fInv_node hinv
    simp only [unsetBeforeGo]
    by_cases hw : 2 < e - s
    · rw [if_pos hw]
      have hch := fInv_children hinv hw
      have hmid := mid_le_b hnode.1 hnode.2.1 hw
      have hleft := fInv_node hch.1
      by_cases hn : n < s + (e - s) / 2
      · rw [if_pos hn]
        exact ih s (e - (e - s) / 2) (s + (e - s) / 2) (f_idx * 2 + 1) acc
          (by omega) hsn hn hch.1
      · rw [if_neg hn]
        have hrec := ih (s + (e - s) / 2) e b (f_idx * 2 + 2)
          (acc + ((e - s) / 2 - a.f (f_idx * 2 + 1)))
          (by omega) (by omega) hnb hch.2
        rw [hrec]
        have hfree : countB a.vals true s (s + (e - s) / 2)
            + countB a.vals false s (s + (e - s) / 2) = (e - s) / 2 := by
          have := countB_true_add_false a.vals s (s + (e - s) / 2)
          omega
        have hsplit := countB_split a.vals false
          (by omega : s ≤ s + (e - s) / 2) (by omega : s + (e - s) / 2 ≤ n)
        rw [hleft.2.2]
        omega
    · rw [if_neg hw]
      have hn2 : n = s ∨ n = s + 1 := by omega
      rcases hn2 with rfl | rfl
      · rw [countB_self]
        simp
      · rw [countB_single]
        have he1 : s + 1 - 1 = s := by omega
        rw [he1]
        cases hv : a.vals s <;> simp [hv]

/-- `unset_before` returns the number of unset bits of `V` before `n`
(clamped to the total number of bits). -/
theorem unset_before_spec {a : LRArray} (hinv : LRInv a) (n : Nat) :
    a.unset_before n = countB a.vals false 0 (min n a.total_bits) := by
  unfold LRArray.unset_before
  by_cases hn : a.total_bits ≤ n
  · rw [if_pos hn]
    have hmin : min n a.total_bits = a.total_bits := by omega
    rw [hmin]
    have h1 := countB_true_add_false a.vals 0 a.total_bits
    have h2 := hinv.1
    have h3 := countB_le a.vals true 0 a.total_bits
    unfold LRArray.unset_bits
    omega
  · rw [if_neg hn]
    have hmin : min n a.total_bits = n := by omega
    rw [hmin]
    have := unsetBeforeGo_spec a.total_bits 0 a.total_bits a.total_bits 0 0
      (by omega) (Nat.zero_le n) (by omega) hinv.2
    simpa using this

/-- Effect of the `set_nth_bit` descent started at a node whose counter was
just incremented (`updF a f_idx` models `self.f[f_idx] += 1` done before
entering the subtree): bit `n` is set, `total_set_bits` is bumped, the
subtree invariant is restored for the new bit vector, and no counter
outside the subtree of `f_idx` changes. -/
theorem setNthGo_spec {n : Nat} :
    ∀ fuel (a : LRArray) s e b f_idx,
      e - s ≤ fuel →
      s ≤ n → n < b →
      a.vals n = false →
      fInv a.vals a.f fuel s e b f_idx →
      (setNthGo n fuel (updF a f_idx) s e f_idx).total_bits = a.total_bits ∧
      (setNthGo n fuel (updF a f_idx) s e f_idx).total_set_bits = a.total_set_bits + 1 ∧
      (∀ j, (setNthGo n fuel (updF a f_idx) s e f_idx).vals j
          = if j = n then true else a.vals j) ∧
      fInv (setNthGo n fuel (updF a f_idx) s e f_idx).vals
        (setNthGo n fuel (updF a f_idx) s e f_idx).f fuel s e b f_idx ∧
      (∀ j, ¬ desc f_idx j → (setNthGo n fuel (updF a f_idx) s e f_idx).f j = a.f j) := by
  intro fuel
  induction fuel with
  | zero =>
    intro a s e b f_idx hfuel hsn hnb hv hinv
    have hnode := fInv_node hinv
    exact ((by omega : False)).elim
  | succ fuel ih =>
    intro a s e b f_idx hfuel hsn hnb hv hinv
    have hnode := fInv_node hinv
    by_cases hw : 2 < e - s
    · have hch := fInv_children hinv hw
      have hmid := mid_le_b hnode.1 hnode.2.1 hw
      by_cases hn : n < s + (e - s) / 2
      · have heq : setNthGo n (fuel + 1) (updF a f_idx) s e f_idx
            = setNthGo n fuel (updF (updF a f_idx) (f_idx * 2 + 1)) s
                (e - (e - s) / 2) (f_idx * 2 + 1) := by
          simp only [setNthGo]
          rw [if_pos hw, if_pos hn]
        have hA : fInv (updF a f_idx).vals (updF a f_idx).f fuel
            s (e - (e - s) / 2) (s + (e - s) / 2) (f_idx * 2 + 1) := by
          apply fInv_congr _ _ _ _ hch.1 (fun i _ _ => rfl)
          intro j hj
          have hne : j ≠ f_idx := by have := desc_le hj; omega
          simp [updF, hne]
        obtain ⟨ht, hts, hvals, hfi, hframe⟩ :=
          ih (updF a f_idx) s (e - (e - s) / 2) (s + (e - s) / 2) (f_idx * 2 + 1)
            (by omega) hsn hn hv hA
        rw [heq]
        refine ⟨ht, hts, fun j => hvals j, ?_, ?_⟩
        · apply fInv_mk hnode.1 hnode.2.1
          · rw [hframe f_idx (not_desc_left_self f_idx)]
            have hcv : countB (setNthGo n fuel (updF (updF a f_idx) (f_idx * 2 + 1)) s
                  (e - (e - s) / 2) (f_idx * 2 + 1)).vals true s b
                = countB a.vals true s b + 1 := by
              rw [countB_congr true (fun i _ _ => hvals i)]
              exact countB_update_true a.vals hsn hnb hv
            rw [hcv, ← hnode.2.2]
            simp [updF]
          · intro hw2
            constructor
            · exact hfi
            · apply fInv_congr _ _ _ _ hch.2
              · intro i hi1 hi2
                have hne : i ≠ n := by omega
                rw [hvals i, if_neg hne]
                exact rfl
              · intro j hj
                have hs1 : ¬ desc (f_idx * 2 + 1) j := fun hc => desc_sibling hc hj
                have hne : j ≠ f_idx := by have := desc_le hj; omega
                rw [hframe j hs1]
                simp [updF, hne]
        · intro j hj
          have hs1 : ¬ desc (f_idx * 2 + 1) j :=
            fun hc => hj (desc_trans (desc_left f_idx) hc)
          have hne : j ≠ f_idx := fun he => hj (he ▸ desc_refl f_idx)
          rw [hframe j hs1]
          simp [updF, hne]
      · have heq : setNthGo n (fuel + 1) (updF a f_idx) s e f_idx
            = setNthGo n fuel (updF (updF a f_idx) (f_idx * 2 + 2)) (s + (e - s) / 2)
                e (f_idx * 2 + 2) := by
          simp only [setNthGo]
          rw [if_pos hw, if_neg hn]
        have hA : fInv (updF a f_idx).vals (updF a f_idx).f fuel
            (s + (e - s) / 2) e b (f_idx * 2 + 2) := by
          apply fInv_congr _ _ _ _ hch.2 (fun i _ _ => rfl)
          intro j hj
          have hne : j ≠ f_idx := by have := desc_le hj; omega
          simp [updF, hne]
        obtain ⟨ht, hts, hvals, hfi, hframe⟩ :=
          ih (updF a f_idx) (s + (e - s) / 2) e b (f_idx * 2 + 2)
            (by omega) (by omega) hnb hv hA
        rw [heq]
        refine ⟨ht, hts, fun j => hvals j, ?_, ?_⟩
        · apply fInv_mk hnode.1 hnode.2.1
          · rw [hframe f_idx (not_desc_right_self f_idx)]
            have hcv : countB (setNthGo n fuel (updF (updF a f_idx) (f_idx * 2 + 2))
                  (s + (e - s) / 2) e (f_idx * 2 + 2)).vals true s b
                = countB a.vals true s b + 1 := by
              rw [countB_congr true (fun i _ _ => hvals i)]
              exact countB_update_true a.vals hsn hnb hv
            rw [hcv, ← hnode.2.2]
            simp [updF]
          · intro hw2
            constructor
            · apply fInv_congr _ _ _ _ hch.1
              · intro i hi1 hi2
                have hne : i ≠ n := by omega
                rw [hvals i, if_neg hne]
                exact rfl
              · intro j hj
                have hs1 : ¬ desc (f_idx * 2 + 2) j := fun hc => desc_sibling hj hc
                have hne : j ≠ f_idx := by have := desc_le hj; omega
                rw [hframe j hs1]
                simp [updF, hne]
            · exact hfi
        · intro j hj
          have hs1 : ¬ desc (f_idx * 2 + 2) j :=
            fun hc => hj (desc_trans (desc_right f_idx) hc)
          have hne : j ≠ f_idx := fun he => hj (he ▸ desc_refl f_idx)
          rw [hframe j hs1]
          simp [updF, hne]
    · have heq : setNthGo n (fuel + 1) (updF a f_idx) s e f_idx
          = setBitState (updF a f_idx) n := by
        simp only [setNthGo]
        rw [if_neg hw]
      rw [heq]
      refine ⟨rfl, rfl, fun j => rfl, ?_, ?_⟩
      · apply fInv_mk hnode.1 hnode.2.1
        · show (updF a f_idx).f f_idx
            = countB (fun j => if j = n then true else a.vals j) true s b
          rw [countB_update_true a.vals hsn hnb hv, ← hnode.2.2]
          simp [updF]
        · intro hw2
          exact absurd hw2 hw
      · intro j hj
        have hne : j ≠ f_idx := fun he => hj (he ▸ desc_refl f_idx)
        show (updF a f_idx).f j = a.f j
        simp [updF, hne]

theorem countB_pair (vals : Nat → Bool) (bv : Bool) (s : Nat) :
    countB vals bv s (s + 2)
      = (if vals s = bv then 1 else 0) + (if vals (s + 1) = bv then 1 else 0) := by
  have h : s + 2 - s = 2 := by omega
  simp [countB, h, countIn]

/-- The width-≤-2 tail of `set_kth_unset_bit` picks exactly the `k`-th unset
bit of the attribution interval `[s, b)` (src/lr_array.rs:172-183, including
the tie-break when `k = 0` but `V[curr_start]` is already set). -/
theorem leafSelect_facts {A : LRArray} {k s b e : Nat}
    (hb1 : b ≤ e) (hb2 : e ≤ b + 1) (hw : ¬ 2 < e - s)
    (hkb : k < countB A.vals false s b) :
    A.vals (leafSelect A k s).1 = false ∧
    countB A.vals false s (leafSelect A k s).1 = k ∧
    s ≤ (leafSelect A k s).1 ∧ (leafSelect A k s).1 < b ∧
    (leafSelect A k s).2 = setBitState A (leafSelect A k s).1 := by
  have hble := countB_le A.vals false s b
  have hsb : s < b := by
    by_contra hc
    have := countB_of_le A.vals false (show b ≤ s by omega)
    omega
  have hb_cases : b = s + 1 ∨ b = s + 2 := by omega
  rcases hb_cases with rfl | rfl
  · rw [countB_single] at hkb
    cases hv : A.vals s
    · rw [hv] at hkb
      simp at hkb
      have hk0 : k = 0 := by omega
      subst hk0
      simp [leafSelect, hv, countB_self]
    · rw [hv] at hkb
      simp at hkb
  · rw [countB_pair] at hkb
    cases hv0 : A.vals s <;> cases hv1 : A.vals (s + 1) <;> rw [hv0, hv1] at hkb <;>
      simp at hkb
    · by_cases hk1 : k = 1
      · subst hk1
        simp [leafSelect, countB_single, hv0, hv1]
      · have hk0 : k = 0 := by omega
        subst hk0
        simp [leafSelect, hv0, hk1, countB_self]
    · have hk0 : k = 0 := by omega
      subst hk0
      simp [leafSelect, hv0, countB_self]
    · have hk0 : k = 0 := by omega
      subst hk0
      simp [leafSelect, hv0, hv1, countB_single]

/-- Effect of the `set_kth_unset_bit` descent started at a node whose
counter was just incremented: the returned index is the unique index with
exactly `k` unset bits of the attribution interval before it, that bit is
set, the subtree invariant is restored, and no counter outside the subtree
changes. -/
theorem setKthGo_spec :
    ∀ fuel (a : LRArray) k s e b f_idx,
      e - s ≤ fuel →
      k < countB a.vals false s b →
      fInv a.vals a.f fuel s e b f_idx →
      s ≤ (setKthGo fuel (updF a f_idx) k s e f_idx).1 ∧
      (setKthGo fuel (updF a f_idx) k s e f_idx).1 < b ∧
      a.vals (setKthGo fuel (updF a f_idx) k s e f_idx).1 = false ∧
      countB a.vals false s (setKthGo fuel (updF a f_idx) k s e f_idx).1 = k ∧
      (setKthGo fuel (updF a f_idx) k s e f_idx).2.total_bits = a.total_bits ∧
      (setKthGo fuel (updF a f_idx) k s e f_idx).2.total_set_bits = a.total_set_bits + 1 ∧
      (∀ j, (setKthGo fuel (updF a f_idx) k s e f_idx).2.vals j
          = if j = (setKthGo fuel (updF a f_idx) k s e f_idx).1 then true else a.vals j) ∧
      fInv (setKthGo fuel (updF a f_idx) k s e f_idx).2.vals
        (setKthGo fuel (updF a f_idx) k s e f_idx).2.f fuel s e b f_idx ∧
      (∀ j, ¬ desc f_idx j → (setKthGo fuel (updF a f_idx) k s e f_idx).2.f j = a.f j) := by
  intro fuel
  induction fuel with
  | zero =>
    intro a k s e b f_idx hfuel hkb hinv
    have hnode := fInv_node hinv
    have := countB_of_le a.vals false (show b ≤ s by omega)
    exact ((by omega : False)).elim
  | succ fuel ih =>
    intro a k s e b f_idx hfuel hkb hinv
    have hnode := fInv_node hinv
    by_cases hw : 2 < e - s
    · have hch := fInv_children hinv hw
      have hmid := mid_le_b hnode.1 hnode.2.1 hw
      have hleftnode := fInv_node hch.1
      have hfA : (updF a f_idx).f (f_idx * 2 + 1) = a.f (f_idx * 2 + 1) := by
        have hne : f_idx * 2 + 1 ≠ f_idx := by omega
        simp [updF, hne]
      have hfree_eq : (e - s) / 2 - (updF a f_idx).f (f_idx * 2 + 1)
          = countB a.vals false s (s + (e - s) / 2) := by
        have htf := countB_true_add_false a.vals s (s + (e - s) / 2)
        rw [hfA, hleftnode.2.2]
        omega
      by_cases hk : k < countB a.vals false s (s + (e - s) / 2)
      · have heq : setKthGo (fuel + 1) (updF a f_idx) k s e f_idx
            = setKthGo fuel (updF (updF a f_idx) (f_idx * 2 + 1)) k s
                (e - (e - s) / 2) (f_idx * 2 + 1) := by
          simp only [setKthGo]
          rw [if_pos hw, if_pos (by rw [hfree_eq]; exact hk)]
        have hA : fInv (updF a f_idx).vals (updF a f_idx).f fuel
            s (e - (e - s) / 2) (s + (e - s) / 2) (f_idx * 2 + 1) := by
          apply fInv_congr _ _ _ _ hch.1 (fun i _ _ => rfl)
          intro j hj
          have hne : j ≠ f_idx := by have := desc_le hj; omega
          simp [updF, hne]
        obtain ⟨hi1, hi2, hiv, hic, ht, hts, hvals, hfi, hframe⟩ :=
          ih (updF a f_idx) k s (e - (e - s) / 2) (s + (e - s) / 2) (f_idx * 2 + 1)
            (by omega) hk hA
        rw [heq]
        refine ⟨hi1, by omega, hiv, hic, ht, hts, fun j => hvals j, ?_, ?_⟩
        · apply fInv_mk hnode.1 hnode.2.1
          · rw [hframe f_idx (not_desc_left_self f_idx)]
            have hcv : countB (setKthGo fuel (updF (updF a f_idx) (f_idx * 2 + 1)) k s
                  (e - (e - s) / 2) (f_idx * 2 + 1)).2.vals true s b
                = countB a.vals true s b + 1 := by
              rw [countB_congr true (fun i _ _ => hvals i)]
              exact countB_update_true a.vals hi1 (by omega) hiv
            rw [hcv, ← hnode.2.2]
            simp [updF]
          · intro hw2
            constructor
            · exact hfi
            · apply fInv_congr _ _ _ _ hch.2
              · intro i hi1' hi2'
                have hne : i ≠ (setKthGo fuel (updF (updF a f_idx) (f_idx * 2 + 1)) k s
                    (e - (e - s) / 2) (f_idx * 2 + 1)).1 := by omega
                rw [hvals i, if_neg hne]
                exact rfl
              · intro j hj
                have hs1 : ¬ desc (f_idx * 2 + 1) j := fun hc => desc_sibling hc hj
                have hne : j ≠ f_idx := by have := desc_le hj; omega
                rw [hframe j hs1]
                simp [updF, hne]
        · intro j hj
          have hs1 : ¬ desc (f_idx * 2 + 1) j :=
            fun hc => hj (desc_trans (desc_left f_idx) hc)
          have hne : j ≠ f_idx := fun he => hj (he ▸ desc_refl f_idx)
          rw [hframe j hs1]
          simp [updF, hne]
      · have hsplit := countB_split a.vals false
          (by omega : s ≤ s + (e - s) / 2) hmid
        have heq : setKthGo (fuel + 1) (updF a f_idx) k s e f_idx
            = setKthGo fuel (updF (updF a f_idx) (f_idx * 2 + 2))
                (k - countB a.vals false s (s + (e - s) / 2))
                (s + (e - s) / 2) e (f_idx * 2 + 2) := by
          simp only [setKthGo]
          rw [if_pos hw, if_neg (by rw [hfree_eq]; exact hk), hfree_eq]
        have hA : fInv (updF a f_idx).vals (updF a f_idx).f fuel
            (s + (e - s) / 2) e b (f_idx * 2 + 2) := by
          apply fInv_congr _ _ _ _ hch.2 (fun i _ _ => rfl)
          intro j hj
          have hne : j ≠ f_idx := by have := desc_le hj; omega
          simp [updF, hne]
        have hkb2 : k - countB a.vals false s (s + (e - s) / 2)
            < countB (updF a f_idx).vals false (s + (e - s) / 2) b := by
          have hconv : countB (updF a f_idx).vals false (s + (e - s) / 2) b
              = countB a.vals false (s + (e - s) / 2) b := rfl
          rw [hconv]
          omega
        obtain ⟨hi1, hi2, hiv, hic, ht, hts, hvals, hfi, hframe⟩ :=
          ih (updF a f_idx) (k - countB a.vals false s (s + (e - s) / 2))
            (s + (e - s) / 2) e b (f_idx * 2 + 2)
            (by omega) hkb2 hA
        rw [heq]
        have hicA : countB a.vals false (s + (e - s) / 2)
            (setKthGo fuel (updF (updF a f_idx) (f_idx * 2 + 2))
              (k - countB a.vals false s (s + (e - s) / 2))
              (s + (e - s) / 2) e (f_idx * 2 + 2)).1
            = k - countB a.vals false s (s + (e - s) / 2) := hic
        have hs2 := countB_split a.vals false
          (show s ≤ s + (e - s) / 2 by omega) hi1
        have hic2 : countB a.vals false s
            (setKthGo fuel (updF (updF a f_idx) (f_idx * 2 + 2))
              (k - countB a.vals false s (s + (e - s) / 2))
              (s + (e - s) / 2) e (f_idx * 2 + 2)).1 = k := by
          rw [hs2, hicA]
          omega
        refine ⟨by omega, hi2, hiv, hic2, ht, hts, fun j => hvals j, ?_, ?_⟩
        · apply fInv_mk hnode.1 hnode.2.1
          · rw [hframe f_idx (not_desc_right_self f_idx)]
            have hcv : countB (setKthGo fuel (updF (updF a f_idx) (f_idx * 2 + 2))
                  (k - countB a.vals false s (s + (e - s) / 2))
                  (s + (e - s) / 2) e (f_idx * 2 + 2)).2.vals true s b
                = countB a.vals true s b + 1 := by
              rw [countB_congr true (fun i _ _ => hvals i)]
              exact countB_update_true a.vals (by omega) hi2 hiv
            rw [hcv, ← hnode.2.2]
            simp [updF]
          · intro hw2
            constructor
            · apply fInv_congr _ _ _ _ hch.1
              · intro i hi1' hi2'
                have hne : i ≠ (setKthGo fuel (updF (updF a f_idx) (f_idx * 2 + 2))
                    (k - countB a.vals false s (s + (e - s) / 2))
                    (s + (e - s) / 2) e (f_idx * 2 + 2)).1 := by omega
                rw [hvals i, if_neg hne]
                exact rfl
              · intro j hj
                have hs1 : ¬ desc (f_idx * 2 + 2) j := fun hc => desc_sibling hj hc
                have hne : j ≠ f_idx := by have := desc_le hj; omega
                rw [hframe j hs1]
                simp [updF, hne]
            · exact hfi
        · intro j hj
          have hs1 : ¬ desc (f_idx * 2 + 2) j :=
            fun hc => hj (desc_trans (desc_right f_idx) hc)
          have hne : j ≠ f_idx := fun he => hj (he ▸ desc_refl f_idx)
          rw [hframe j hs1]
          simp [updF, hne]
    · have heq : setKthGo (fuel + 1) (updF a f_idx) k s e f_idx
          = leafSelect (updF a f_idx) k s := by
        simp only [setKthGo]
        rw [if_neg hw]
      rw [heq]
      obtain ⟨hchv, hchc, hch1, hch2, hch5⟩ :=
        leafSelect_facts (A := updF a f_idx) hnode.1 hnode.2.1 hw hkb
      refine ⟨hch1, hch2, hchv, hchc, ?_, ?_, ?_, ?_, ?_⟩
      · rw [hch5]
        rfl
      · rw [hch5]
        rfl
      · intro j
        rw [hch5]
        rfl
      · apply fInv_mk hnode.1 hnode.2.1
        · rw [hch5]
          show (updF a f_idx).f f_idx
            = countB (fun j => if j = (leafSelect (updF a f_idx) k s).1 then true
                else a.vals j) true s b
          rw [countB_update_true a.vals hch1 hch2 hchv, ← hnode.2.2]
          simp [updF]
        · intro hw2
          exact absurd hw2 hw
      · intro j hj
        rw [hch5]
        have hne : j ≠ f_idx := fun he => hj (he ▸ desc_refl f_idx)
        show (updF a f_idx).f j = a.f j
        simp [updF, hne]

theorem set_nth_bit_none {a : LRArray} {n : Nat} (hn : a.total_bits ≤ n) :
    a.set_nth_bit n = none := by
  unfold LRArray.set_nth_bit
  rw [if_neg (by omega)]

theorem set_nth_bit_already {a : LRArray} {n : Nat} (hn : n < a.total_bits)
    (hv : a.vals n = true) : a.set_nth_bit n = some (true, a) := by
  unfold LRArray.set_nth_bit
  rw [if_pos hn]
  simp [hv]

/-- `set_nth_bit` on an unset in-range bit: sets exactly that bit, bumps the
set-bit counter, and preserves the data-structure invariant. -/
theorem set_nth_bit_spec_set {a : LRArray} (hinv : LRInv a) {n : Nat}
    (hn : n < a.total_bits) (hv : a.vals n = false) :
    ∃ a', a.set_nth_bit n = some (false, a') ∧ LRInv a' ∧
      a'.total_bits = a.total_bits ∧ a'.total_set_bits = a.total_set_bits + 1 ∧
      (∀ j, a'.vals j = if j = n then true else a.vals j) := by
  obtain ⟨ht, hts, hvals, hfi, hframe⟩ :=
    setNthGo_spec a.total_bits a 0 a.total_bits a.total_bits 0
      (by omega) (Nat.zero_le n) hn hv hinv.2
  refine ⟨setNthGo n a.total_bits (updF a 0) 0 a.total_bits 0, ?_, ⟨?_, ?_⟩, ht, hts, hvals⟩
  · unfold LRArray.set_nth_bit
    rw [if_pos hn]
    simp [hv]
  · rw [hts, ht, countB_congr true (fun i _ _ => hvals i),
      countB_update_true a.vals (Nat.zero_le n) hn hv, hinv.1]
  · rw [ht]
    exact hfi

theorem set_kth_unset_bit_none {a : LRArray} {k : Nat} (h : a.unset_bits ≤ k) :
    a.set_kth_unset_bit k = none := by
  unfold LRArray.set_kth_unset_bit
  rw [if_pos h]

/-- `set_kth_unset_bit` with an in-range rank `k`: returns the unique index
`i` with exactly `k` unset bits before it and an unset bit at `i`, sets that
bit, and preserves the data-structure invariant. -/
theorem set_kth_unset_bit_spec {a : LRArray} (hinv : LRInv a) {k : Nat}
    (hk : k < a.unset_bits) :
    ∃ i a', a.set_kth_unset_bit k = some (i, a') ∧
      i < a.total_bits ∧ a.vals i = false ∧ countB a.vals false 0 i = k ∧
      LRInv a' ∧ a'.total_bits = a.total_bits ∧
      a'.total_set_bits = a.total_set_bits + 1 ∧
      (∀ j, a'.vals j = if j = i then true else a.vals j) := by
  have htf := countB_true_add_false a.vals 0 a.total_bits
  have hle := countB_le a.vals true 0 a.total_bits
  have hkb : k < countB a.vals false 0 a.total_bits := by
    have h1 := hinv.1
    unfold LRArray.unset_bits at hk
    omega
  obtain ⟨hi1, hi2, hiv, hic, ht, hts, hvals, hfi, hframe⟩ :=
    setKthGo_spec a.total_bits a k 0 a.total_bits a.total_bits 0 (by omega) hkb hinv.2
  refine ⟨(setKthGo a.total_bits (updF a 0) k 0 a.total_bits 0).1,
    (setKthGo a.total_bits (updF a 0) k 0 a.total_bits 0).2,
    ?_, hi2, hiv, hic, ⟨?_, ?_⟩, ht, hts, hvals⟩
  · unfold LRArray.set_kth_unset_bit
    rw [if_neg (show ¬ a.unset_bits ≤ k by omega)]
  · rw [hts, ht, countB_congr true (fun i _ _ => hvals i),
      countB_update_true a.vals hi1 hi2 hiv, hinv.1]
  · rw [ht]
    exact hfi

/-- States reachable from `LRArray::new` by any sequence of completed
`set_nth_bit` / `set_kth_unset_bit` calls. -/
inductive Reachable : LRArray → Prop
  | new (size : Nat) : Reachable (LRArray.new size)
  | set_nth (a : LRArray) (n : Nat) (r : Bool) (a' : LRArray)
      (ha : Reachable a) (hcall : a.set_nth_bit n = some (r, a')) : Reachable a'
  | set_kth (a : LRArray) (k i : Nat) (a' : LRArray)
      (ha : Reachable a) (hcall : a.set_kth_unset_bit k = some (i, a')) : Reachable a'

/-- Every reachable LRArray state satisfies the counter invariant. -/
theorem Reachable_LRInv {a : LRArray} (h : Reachable a) : LRInv a := by
  induction h with
  | new size => exact LRInv_new size
  | set_nth a n r a' ha hcall ih =>
    by_cases hn : n < a.total_bits
    · by_cases hv : a.vals n = true
      · rw [set_nth_bit_already hn hv] at hcall
        simp at hcall
        exact hcall.2 ▸ ih
      · have hv' : a.vals n = false := by
          revert hv
          cases a.vals n <;> simp
        obtain ⟨a'', heq, hinv', _⟩ := set_nth_bit_spec_set ih hn hv'
        rw [heq] at hcall
        simp at hcall
        exact hcall.2 ▸ hinv'
    · rw [set_nth_bit_none (by omega)] at hcall
      simp at hcall
  | set_kth a k i a' ha hcall ih =>
    by_cases hk : a.unset_bits ≤ k
    · rw [set_kth_unset_bit_none hk] at hcall
      simp at hcall
    · obtain ⟨i', a'', heq, _, _, _, hinv', _⟩ :=
        set_kth_unset_bit_spec ih (show k < a.unset_bits by omega)
      rw [heq] at hcall
      simp at hcall
      exact hcall.2 ▸ hinv'

/-- Observational equivalence of two LRArray states: same logical size,
same set-bit count, same bit-vector contents (the segment trees may be
represented differently, but under `LRInv` they carry the same counts). -/
def obsEq (a b : LRArray) : Prop :=
  a.total_bits = b.total_bits ∧ a.total_set_bits = b.total_set_bits ∧
  ∀ j, a.vals j = b.vals j

theorem obsEq_refl (a : LRArray) : obsEq a a := ⟨rfl, rfl, fun _ => rfl⟩

/-- The loop of `perm_to_lehmer` (src/lib.rs:17-24): each entry is replaced
by `unset_before(v)` and then bit `v` is set; `none` models the `assert!`
failure (duplicate value) and the out-of-range index panic. -/
def perm_to_lehmer_go (lr : LRArray) : List Nat → Option (List Nat)
  | [] => some []
  | v :: rest =>
    match lr.set_nth_bit v with
    | none => none
    | some (true, _) => none
    | some (false, lr') =>
      match perm_to_lehmer_go lr' rest with
      | none => none
      | some l => some (lr.unset_before v :: l)

/-- `perm_to_lehmer` (src/lib.rs:17-24). -/
def perm_to_lehmer (perm : List Nat) : Option (List Nat) :=
  perm_to_lehmer_go (LRArray.new perm.length) perm

/-- The loop of `lehmer_to_perm` (src/lib.rs:26-31): each entry is replaced
by `set_kth_unset_bit(k)`; `none` models the out-of-range panic. -/
def lehmer_to_perm_go (lr : LRArray) : List Nat → Option (List Nat)
  | [] => some []
  | k :: rest =>
    match lr.set_kth_unset_bit k with
    | none => none
    | some (i, lr') =>
      match lehmer_to_perm_go lr' rest with
      | none => none
      | some p => some (i :: p)

/-- `lehmer_to_perm` (src/lib.rs:26-31). -/
def lehmer_to_perm (lehmer : List Nat) : Option (List Nat) :=
  lehmer_to_perm_go (LRArray.new lehmer.length) lehmer

/-- A valid permutation of `{0, …, N−1}` (spec §3): every value below the
length, no duplicates. -/
def ValidPerm (p : List Nat) : Prop := p.Nodup ∧ ∀ v ∈ p, v < p.length

/-- A valid Lehmer code (spec §3): `L[i] ∈ {0, …, N−1−i}`. -/
def ValidLehmer : List Nat → Prop
  | [] => True
  | k :: rest => k < rest.length + 1 ∧ ValidLehmer rest

instance ValidPerm.dec (p : List Nat) : Decidable (ValidPerm p) :=
  inferInstanceAs (Decidable (p.Nodup ∧ ∀ v ∈ p, v < p.length))

instance ValidLehmer.dec : (l : List Nat) → Decidable (ValidLehmer l)
  | [] => isTrue trivial
  | k :: rest =>
    have : Decidable (ValidLehmer rest) := ValidLehmer.dec rest
    inferInstanceAs (Decidable (k < rest.length + 1 ∧ ValidLehmer rest))

/-- Forward-then-inverse round trip of the Lehmer loops, generalized over
the LRArray state. -/
theorem perm_lehmer_go_round {p : List Nat} :
    ∀ lr, LRInv lr → p.Nodup →
      (∀ v ∈ p, v < lr.total_bits ∧ lr.vals v = false) →
      ∃ l, perm_to_lehmer_go lr p = some l ∧ l.length = p.length ∧
        (∀ lr2, LRInv lr2 → obsEq lr lr2 → lehmer_to_perm_go lr2 l = some p) := by
  induction p with
  | nil => exact fun lr _ _ _ => ⟨[], rfl, rfl, fun lr2 _ _ => rfl⟩
  | cons v rest ih =>
    intro lr hinv hnd hmem
    have hv := hmem v (List.mem_cons_self v rest)
    obtain ⟨lr', heq, hinv', ht', hts', hvals'⟩ := set_nth_bit_spec_set hinv hv.1 hv.2
    have hrest : ∀ w ∈ rest, w < lr'.total_bits ∧ lr'.vals w = false := by
      intro w hw
      have hwv : w ≠ v := by
        intro hcontra
        subst hcontra
        exact (List.nodup_cons.mp hnd).1 hw
      have hmw := hmem w (List.mem_cons_of_mem v hw)
      exact ⟨by rw [ht']; exact hmw.1, by rw [hvals' w, if_neg hwv]; exact hmw.2⟩
    obtain ⟨l, hl, hlen, hinvrt⟩ := ih lr' hinv' (List.nodup_cons.mp hnd).2 hrest
    refine ⟨lr.unset_before v :: l, ?_, by simp [hlen], ?_⟩
    · simp only [perm_to_lehmer_go, heq, hl]
    · intro lr2 hinv2 hobs
      have hmin : min v lr.total_bits = v := by omega
      have hub : lr.unset_before v = countB lr.vals false 0 v := by
        rw [unset_before_spec hinv v, hmin]
      have hcB2 : countB lr.vals false 0 v = countB lr2.vals false 0 v :=
        countB_congr false (fun i _ _ => hobs.2.2 i)
      have htf := countB_true_add_false lr.vals 0 lr.total_bits
      have h1 := hinv.1
      have hsplitv := countB_split lr.vals false (Nat.zero_le v) (le_of_lt hv.1)
      have hposv := countB_false_pos lr.vals (Nat.le_refl v) hv.1 hv.2
      have hle2 := countB_le lr.vals true 0 lr.total_bits
      have hk2 : lr.unset_before v < lr2.unset_bits := by
        unfold LRArray.unset_bits
        rw [← hobs.1, ← hobs.2.1, hub]
        omega
      obtain ⟨i2, lr2', heq2, hi2lt, hi2v, hi2c, hinv2', ht2, hts2, hvals2⟩ :=
        set_kth_unset_bit_spec hinv2 hk2
      have hlr2v : lr2.vals v = false := by
        rw [← hobs.2.2 v]
        exact hv.2
      have hiv2 : i2 = v := by
        apply countB_false_unique lr2.vals hi2v hlr2v
        rw [hi2c, hub, hcB2]
      subst hiv2
      have hobs' : obsEq lr' lr2' := by
        refine ⟨by rw [ht', ht2, hobs.1], by rw [hts', hts2, hobs.2.1], ?_⟩
        intro j
        rw [hvals' j, hvals2 j]
        by_cases hj : j = i2
        · simp [hj]
        · simp [hj, hobs.2.2 j]
      simp only [lehmer_to_perm_go, heq2, hinvrt lr2' hinv2' hobs']

/-- Inverse-then-forward round trip of the Lehmer loops, generalized over
the LRArray state. -/
theorem lehmer_perm_go_round {l : List Nat} :
    ∀ lr, LRInv lr → ValidLehmer l → l.length ≤ lr.unset_bits →
      ∃ p, lehmer_to_perm_go lr l = some p ∧ p.length = l.length ∧
        p.Nodup ∧ (∀ v ∈ p, v < lr.total_bits ∧ lr.vals v = false) ∧
        (∀ lr2, LRInv lr2 → obsEq lr lr2 → perm_to_lehmer_go lr2 p = some l) := by
  induction l with
  | nil =>
    exact fun lr _ _ _ => ⟨[], rfl, rfl, List.nodup_nil, by simp, fun lr2 _ _ => rfl⟩
  | cons k rest ih =>
    intro lr hinv hvl hlen
    have hlen' : rest.length + 1 ≤ lr.unset_bits := by simpa using hlen
    obtain ⟨i, lr', heq, hilt, hiv, hic, hinv', ht', hts', hvals'⟩ :=
      set_kth_unset_bit_spec hinv (show k < lr.unset_bits by have := hvl.1; omega)
    have hub' : lr'.unset_bits = lr.unset_bits - 1 := by
      unfold LRArray.unset_bits
      rw [ht', hts']
      unfold LRArray.unset_bits at hlen'
      omega
    obtain ⟨p, hp, hplen, hpnd, hpmem, hrt⟩ := ih lr' hinv' hvl.2 (by omega)
    refine ⟨i :: p, ?_, by simp [hplen], ?_, ?_, ?_⟩
    · simp only [lehmer_to_perm_go, heq, hp]
    · rw [List.nodup_cons]
      refine ⟨?_, hpnd⟩
      intro hmem'
      have hcontra := (hpmem i hmem').2
      rw [hvals' i] at hcontra
      simp at hcontra
    · intro v hv
      rcases List.mem_cons.mp hv with rfl | hvm
      · exact ⟨hilt, hiv⟩
      · have hmv := hpmem v hvm
        refine ⟨by rw [← ht']; exact hmv.1, ?_⟩
        have h2 := hmv.2
        rw [hvals' v] at h2
        by_cases hvi : v = i
        · rw [if_pos hvi] at h2
          cases h2
        · rw [if_neg hvi] at h2
          exact h2
    · intro lr2 hinv2 hobs
      have hi2 : i < lr2.total_bits := by
        rw [← hobs.1]
        exact hilt
      have hv2 : lr2.vals i = false := by
        rw [← hobs.2.2 i]
        exact hiv
      obtain ⟨lr2', heq2, hinv2', ht2, hts2, hvals2⟩ := set_nth_bit_spec_set hinv2 hi2 hv2
      have hub2 : lr2.unset_before i = k := by
        rw [unset_before_spec hinv2 i]
        have hmin : min i lr2.total_bits = i := by omega
        rw [hmin, ← countB_congr false (fun j _ _ => hobs.2.2 j)]
        exact hic
      have hobs' : obsEq lr' lr2' := by
        refine ⟨by rw [ht', ht2, hobs.1], by rw [hts', hts2, hobs.2.1], ?_⟩
        intro j
        rw [hvals' j, hvals2 j]
        by_cases hj : j = i
        · simp [hj]
        · simp [hj, hobs.2.2 j]
      simp only [perm_to_lehmer_go, heq2, hrt lr2' hinv2' hobs', hub2]

/-- `lehmer_to_perm (perm_to_lehmer P) = P` for valid permutations. -/
theorem perm_to_lehmer_round {p : List Nat} (hp : ValidPerm p) :
    ∃ l, perm_to_lehmer p = some l ∧ l.length = p.length ∧
      lehmer_to_perm l = some p := by
  obtain ⟨l, hl, hlen, hinvrt⟩ :=
    perm_lehmer_go_round (LRArray.new p.length) (LRInv_new _) hp.1
      (fun v hv => ⟨hp.2 v hv, rfl⟩)
  refine ⟨l, hl, hlen, ?_⟩
  unfold lehmer_to_perm
  rw [hlen]
  exact hinvrt (LRArray.new p.length) (LRInv_new _) (obsEq_refl _)

/-- `perm_to_lehmer (lehmer_to_perm L) = L` for valid Lehmer codes; the
produced permutation is valid. -/
theorem lehmer_to_perm_round {l : List Nat} (hl : ValidLehmer l) :
    ∃ p, lehmer_to_perm l = some p ∧ ValidPerm p ∧ p.length = l.length ∧
      perm_to_lehmer p = some l := by
  obtain ⟨p, hp, hplen, hpnd, hpmem, hrt⟩ :=
    lehmer_perm_go_round (LRArray.new l.length) (LRInv_new _) hl
      (by simp [LRArray.unset_bits, LRArray.new])
  refine ⟨p, hp, ⟨hpnd, ?_⟩, hplen, ?_⟩
  · intro v hv
    have hvlt := (hpmem v hv).1
    rw [hplen]
    exact hvlt
  · unfold perm_to_lehmer
    rw [hplen]
    exact hrt _ (LRInv_new _) (obsEq_refl _)

/-- `BitPacker4x::BLOCK_LEN` of the external `bitpacking` crate: 128. -/
def BLOCK_LEN : Nat := 128

/-- Little-endian base-`2^w` digits: `packNat w [v₀, v₁, …] = Σ vᵢ·2^(w·i)`. -/
def packNat (w : Nat) : List Nat → Nat
  | [] => 0
  | v :: rest => v + 2 ^ w * packNat w rest

/-- The `count` low base-`2^w` digits of `m`, least significant first. -/
def unpackVals (w : Nat) : Nat → Nat → List Nat
  | 0, _ => []
  | count + 1, m => m % 2 ^ w :: unpackVals w count (m / 2 ^ w)

/-- Number of binary digits of `v`, by halving; the fuel (first argument)
bounds the recursion and any `fuel ≥ v` is exact. -/
def bitsForGo : Nat → Nat → Nat
  | 0, _ => 0
  | fuel + 1, v => if v = 0 then 0 else bitsForGo fuel (v / 2) + 1

/-- Modelled from the spec: number of bits needed for one value (`0` needs
`0` bits, otherwise `⌊log2 v⌋ + 1`). -/
def bitsFor (v : Nat) : Nat := bitsForGo v v

/-- Modelled from the spec: `BitPacker4x::num_bits`, the minimum bit width
`w` such that every value of the block is below `2^w`. -/
def num_bits (blk : List Nat) : Nat := blk.foldr (fun v acc => max (bitsFor v) acc) 0

/-- Modelled from the spec: `BitPacker4x::compress`, a symmetric fixed-size
block codec emitting `w·B/8 = 16·w` bytes for a block of `B = 128` values
all below `2^w` — the values concatenated as `w`-bit fields, as
little-endian bytes.  The claims depend only on the framing contract
(fixed `B`, payload size `w·B/8`, symmetric encode/decode), which this
concrete codec satisfies. -/
def packer_compress (w : Nat) (blk : List Nat) : List Nat :=
  unpackVals 8 (16 * w) (packNat w blk)

/-- Modelled from the spec: `BitPacker4x::decompress` — reads `16·w` bytes
and recovers the block of `128` `w`-bit values. -/
def packer_decompress (w : Nat) (bytes : List Nat) : List Nat :=
  unpackVals w BLOCK_LEN (packNat 8 bytes)

/-- `CompressionMode` (src/lib.rs:11-15). -/
inductive CompressionMode where
  | Fast
  | Slow
deriving DecidableEq

/-- Header bytes `(N as u32).to_le_bytes()`; the truncating `as u32` cast
is the restriction to the 4 low bytes. -/
def u32_le (n : Nat) : List Nat := unpackVals 8 4 n

/-- The current block of the compression loop (src/lib.rs:47-59): the next
`BLOCK_LEN` entries; a shorter final block is copied into a zero-padded
scratch buffer of length `BLOCK_LEN`.  (For a full block the padding is
empty, so both branches of the Rust `if` produce this block.) -/
def padBlock (xs : List Nat) : List Nat :=
  xs.take BLOCK_LEN ++ List.replicate (BLOCK_LEN - (xs.take BLOCK_LEN).length) 0

/-- The block loop of `compress_permutation` (src/lib.rs:46-68): each block
of `BLOCK_LEN` entries (the last one zero-padded) is emitted as its
`num_bits` byte followed by the packed payload.  Any `fuel ≥ xs.length`
covers all iterations, since each iteration consumes at least one element. -/
def compressBlocks : Nat → List Nat → List Nat
  | 0, _ => []
  | fuel + 1, xs =>
    match xs with
    | [] => []
    | _ :: _ =>
      num_bits (padBlock xs)
        :: (packer_compress (num_bits (padBlock xs)) (padBlock xs)
            ++ compressBlocks fuel (xs.drop BLOCK_LEN))

/-- Length of the output buffer allocated by `compress_permutation`
(src/lib.rs:39-40): `4 + max(N, B)·4 + ⌊max(N, B)/B⌋` bytes, where the
division is the truncating integer division of `usize`. -/
def compress_alloc_len (n : Nat) : Nat :=
  4 + max n BLOCK_LEN * 4 + max n BLOCK_LEN / BLOCK_LEN

/-- `compress_permutation` (src/lib.rs:33-72).  The sequential writes into
the buffer of `compress_alloc_len` zero bytes followed by
`truncate(next_free_index)` yield exactly the 4-byte header followed by the
concatenated block stream.  `none` models the Slow-mode panic of the
forward Lehmer transform on a non-permutation input. -/
def compress_permutation (cmode : CompressionMode) (perm : List Nat) :
    Option (List Nat) :=
  match (if cmode = CompressionMode.Slow then perm_to_lehmer perm else some perm) with
  | none => none
  | some perm2 => some (u32_le perm2.length ++ compressBlocks perm2.length perm2)

/-- The decode loop of `decompress_permutation` (src/lib.rs:81-88): read a
width byte, decode one block of `BLOCK_LEN` values from the next `16·w`
bytes, continue until the stream is exhausted.  Any `fuel ≥` the stream
length covers all iterations. -/
def decompressLoop : Nat → List Nat → List Nat
  | 0, _ => []
  | _ + 1, [] => []
  | fuel + 1, w :: rest =>
    packer_decompress w (rest.take (16 * w)) ++ decompressLoop fuel (rest.drop (16 * w))

/-- `decompress_permutation` (src/lib.rs:74-95); `none` models the
Slow-mode panic on an out-of-range decoded Lehmer entry. -/
def decompress_permutation (cmode : CompressionMode) (data : List Nat) :
    Option (List Nat) :=
  if cmode = CompressionMode.Slow then
    lehmer_to_perm ((decompressLoop data.length (data.drop 4)).take
      (packNat 8 (data.take 4)))
  else
    some ((decompressLoop data.length (data.drop 4)).take (packNat 8 (data.take 4)))

/-- The Fast-path block loop of `decompress_permutation_range`
(src/lib.rs:118-145): every block is decoded; blocks whose index lies in
`[lo/B, hi/B]` contribute their `[rel_start, rel_end)` slice.  `none`
models the panic of the Rust slice `block[rel_start..rel_end]` when
`rel_start > rel_end` (its other panic condition, `rel_end > BLOCK_LEN`,
never holds: `rel_end ≤ BLOCK_LEN` in both branches of its definition,
and for an in-window block `cb ≤ hi/B` gives `cb·B ≤ hi`, so the `usize`
subtraction `hi - cb·B` cannot wrap). -/
def rangeLoop (lo hi : Nat) : Nat → List Nat → Nat → Option (List Nat)
  | 0, _, _ => some []
  | _ + 1, [], _ => some []
  | fuel + 1, w :: rest, cb =>
    if lo / BLOCK_LEN ≤ cb ∧ cb ≤ hi / BLOCK_LEN then
      if (if lo > cb * BLOCK_LEN then lo - cb * BLOCK_LEN else 0)
          ≤ (if hi < cb * BLOCK_LEN + BLOCK_LEN then hi - cb * BLOCK_LEN else BLOCK_LEN) then
        match rangeLoop lo hi fuel (rest.drop (16 * w)) (cb + 1) with
        | none => none
        | some t =>
          some (((packer_decompress w (rest.take (16 * w))).drop
              (if lo > cb * BLOCK_LEN then lo - cb * BLOCK_LEN else 0)).take
              ((if hi < cb * BLOCK_LEN + BLOCK_LEN then hi - cb * BLOCK_LEN else BLOCK_LEN)
                - (if lo > cb * BLOCK_LEN then lo - cb * BLOCK_LEN else 0)) ++ t)
      else none
    else rangeLoop lo hi fuel (rest.drop (16 * w)) (cb + 1)

/-- `decompress_permutation_range` (src/lib.rs:97-148) on the half-open
range `lo..hi`.  The Slow path fully decompresses and slices; `none`
models the panic of `perm[range]` when `hi > N` or `lo > hi`. -/
def decompress_permutation_range (cmode : CompressionMode) (data : List Nat)
    (lo hi : Nat) : Option (List Nat) :=
  if cmode = CompressionMode.Slow then
    match decompress_permutation cmode data with
    | none => none
    | some perm =>
      if lo ≤ hi ∧ hi ≤ perm.length then some ((perm.drop lo).take (hi - lo))
      else none
  else
    rangeLoop lo hi data.length (data.drop 4) 0

theorem length_unpackVals (w : Nat) : ∀ count m, (unpackVals w count m).length = count := by
  intro count
  induction count with
  | zero => intro m; rfl
  | succ c ih => intro m; simp [unpackVals, ih]

theorem unpackVals_lt (w : Nat) :
    ∀ count m, ∀ x ∈ unpackVals w count m, x < 2 ^ w := by
  intro count
  induction count with
  | zero => intro m x hx; simp [unpackVals] at hx
  | succ c ih =>
    intro m x hx
    simp only [unpackVals, List.mem_cons] at hx
    rcases hx with rfl | hx
    · exact Nat.mod_lt m (Nat.pos_pow_of_pos w (by omega))
    · exact ih (m / 2 ^ w) x hx

theorem packNat_lt (w : Nat) :
    ∀ l : List Nat, (∀ v ∈ l, v < 2 ^ w) → packNat w l < (2 ^ w) ^ l.length := by
  intro l
  induction l with
  | nil => intro _; simp [packNat]
  | cons v rest ih =>
    intro h
    have hv := h v (List.mem_cons_self v rest)
    have hP := ih (fun x hx => h x (List.mem_cons_of_mem v hx))
    simp only [packNat, List.length_cons]
    have h1 : 2 ^ w * (packNat w rest + 1) ≤ 2 ^ w * (2 ^ w) ^ rest.length :=
      Nat.mul_le_mul_left (2 ^ w) hP
    have h2 : (2 ^ w) ^ (rest.length + 1) = 2 ^ w * (2 ^ w) ^ rest.length := by
      rw [pow_succ, Nat.mul_comm]
    rw [h2]
    have h3 : 2 ^ w * (packNat w rest + 1)
        = 2 ^ w * packNat w rest + 2 ^ w := by ring
    omega

theorem packNat_unpackVals (w : Nat) :
    ∀ count m, m < (2 ^ w) ^ count → packNat w (unpackVals w count m) = m := by
  intro count
  induction count with
  | zero =>
    intro m hm
    simp at hm
    simp [unpackVals, packNat, hm]
  | succ c ih =>
    intro m hm
    have hpos : 0 < 2 ^ w := Nat.pos_pow_of_pos w (by omega)
    have hdiv : m / 2 ^ w < (2 ^ w) ^ c := by
      rw [Nat.div_lt_iff_lt_mul hpos]
      rw [pow_succ] at hm
      exact hm
    simp only [unpackVals, packNat]
    rw [ih (m / 2 ^ w) hdiv, Nat.mod_add_div]

theorem unpackVals_packNat (w : Nat) :
    ∀ l : List Nat, (∀ v ∈ l, v < 2 ^ w) → unpackVals w l.length (packNat w l) = l := by
  intro l
  induction l with
  | nil => intro _; rfl
  | cons v rest ih =>
    intro h
    have hv := h v (List.mem_cons_self v rest)
    have hpos : 0 < 2 ^ w := Nat.pos_pow_of_pos w (by omega)
    simp only [List.length_cons, unpackVals, packNat]
    rw [Nat.add_mul_mod_self_left, Nat.mod_eq_of_lt hv,
      Nat.add_mul_div_left v (packNat w rest) hpos, Nat.div_eq_of_lt hv, Nat.zero_add,
      ih (fun x hx => h x (List.mem_cons_of_mem v hx))]

theorem bitsForGo_lt : ∀ fuel v, v ≤ fuel → v < 2 ^ bitsForGo fuel v := by
  intro fuel
  induction fuel with
  | zero =>
    intro v hv
    simp only [bitsForGo]
    omega
  | succ fuel ih =>
    intro v hv
    by_cases h0 : v = 0
    · simp [bitsForGo, h0]
    · simp only [bitsForGo, if_neg h0]
      have hd : v / 2 ≤ fuel := by omega
      have hrec := ih (v / 2) hd
      rw [pow_succ]
      omega

theorem bitsFor_lt (v : Nat) : v < 2 ^ bitsFor v := bitsForGo_lt v v (Nat.le_refl v)

theorem num_bits_spec (blk : List Nat) : ∀ v ∈ blk, v < 2 ^ num_bits blk := by
  have hb : ∀ v ∈ blk, bitsFor v ≤ num_bits blk := by
    unfold num_bits
    induction blk with
    | nil => intro v hv; simp at hv
    | cons x rest ih =>
      intro v hv
      rcases List.mem_cons.mp hv with rfl | hv2
      · exact le_max_left _ _
      · exact le_trans (ih v hv2) (le_max_right _ _)
  intro v hv
  exact lt_of_lt_of_le (bitsFor_lt v) (Nat.pow_le_pow_right (by omega) (hb v hv))

/-- The concrete packer round-trips on full blocks whose values fit in `w`
bits. -/
theorem packer_roundtrip (w : Nat) (blk : List Nat) (hlen : blk.length = BLOCK_LEN)
    (hval : ∀ v ∈ blk, v < 2 ^ w) :
    packer_decompress w (packer_compress w blk) = blk := by
  unfold packer_compress packer_decompress
  have hM : packNat w blk < (2 ^ w) ^ BLOCK_LEN := by
    rw [← hlen]
    exact packNat_lt w blk hval
  have hpow : (2 ^ w) ^ BLOCK_LEN = (2 ^ 8) ^ (16 * w) := by
    rw [← pow_mul, ← pow_mul]
    congr 1
    unfold BLOCK_LEN
    ring
  have hM8 : packNat w blk < (2 ^ 8) ^ (16 * w) := by
    rw [← hpow]
    exact hM
  rw [packNat_unpackVals 8 (16 * w) (packNat w blk) hM8, ← hlen,
    unpackVals_packNat w blk hval]

theorem padBlock_length (xs : List Nat) : (padBlock xs).length = BLOCK_LEN := by
  unfold padBlock
  simp [List.length_take]

theorem padBlock_of_le {xs : List Nat} (h : BLOCK_LEN ≤ xs.length) :
    padBlock xs = xs.take BLOCK_LEN := by
  unfold padBlock
  have h0 : BLOCK_LEN - (xs.take BLOCK_LEN).length = 0 := by
    simp [List.length_take]
    omega
  rw [h0]
  simp

theorem padBlock_of_lt {xs : List Nat} (h : xs.length < BLOCK_LEN) :
    padBlock xs = xs ++ List.replicate (BLOCK_LEN - xs.length) 0 := by
  unfold padBlock
  rw [List.take_of_length_le (by omega)]

/-- A compressed block stream decodes back to the input padded with zeros
to a multiple of the block length. -/
theorem compressBlocks_decompressLoop :
    ∀ cfuel xs dfuel, xs.length ≤ cfuel →
      (compressBlocks cfuel xs).length ≤ dfuel →
      ∃ m, decompressLoop dfuel (compressBlocks cfuel xs) = xs ++ List.replicate m 0 := by
  intro cfuel
  induction cfuel with
  | zero =>
    intro xs dfuel hx _
    have hnil : xs = [] := List.eq_nil_of_length_eq_zero (by omega)
    subst hnil
    refine ⟨0, ?_⟩
    cases dfuel <;> simp [compressBlocks, decompressLoop]
  | succ cfuel ih =>
    intro xs dfuel hx hd
    cases xs with
    | nil =>
      refine ⟨0, ?_⟩
      cases dfuel <;> simp [compressBlocks, decompressLoop]
    | cons y ys =>
      have hBL : BLOCK_LEN = 128 := rfl
      have hstream : compressBlocks (cfuel + 1) (y :: ys)
          = num_bits (padBlock (y :: ys))
            :: (packer_compress (num_bits (padBlock (y :: ys))) (padBlock (y :: ys))
              ++ compressBlocks cfuel ((y :: ys).drop BLOCK_LEN)) := rfl
      have hpl : (packer_compress (num_bits (padBlock (y :: ys)))
          (padBlock (y :: ys))).length = 16 * num_bits (padBlock (y :: ys)) :=
        length_unpackVals 8 _ _
      rw [hstream] at hd ⊢
      cases dfuel with
      | zero => simp at hd
      | succ d =>
        simp only [decompressLoop]
        rw [List.take_left' hpl, List.drop_left' hpl,
          packer_roundtrip _ _ (padBlock_length (y :: ys)) (num_bits_spec _)]
        have hrecx : ((y :: ys).drop BLOCK_LEN).length ≤ cfuel := by
          simp only [List.length_drop, List.length_cons]
          simp only [List.length_cons] at hx
          omega
        have hrecd : (compressBlocks cfuel ((y :: ys).drop BLOCK_LEN)).length ≤ d := by
          simp only [List.length_cons, List.length_append, hpl] at hd
          omega
        obtain ⟨m, hm⟩ := ih ((y :: ys).drop BLOCK_LEN) d hrecx hrecd
        rw [hm]
        rcases le_or_lt BLOCK_LEN (y :: ys).length with hlen | hlen
        · refine ⟨m, ?_⟩
          rw [padBlock_of_le hlen, ← List.append_assoc, List.take_append_drop]
        · refine ⟨BLOCK_LEN - (y :: ys).length + m, ?_⟩
          rw [padBlock_of_lt hlen, List.drop_eq_nil_of_le (by omega)]
          simp [List.append_assoc]

theorem u32_le_length (n : Nat) : (u32_le n).length = 4 := length_unpackVals 8 4 n

theorem u32_le_roundtrip {n : Nat} (h : n < 2 ^ 32) : packNat 8 (u32_le n) = n := by
  unfold u32_le
  apply packNat_unpackVals
  have h4 : (2 ^ 8 : Nat) ^ 4 = 2 ^ 32 := by norm_num
  rw [h4]
  exact h

/-- Decoding a framed stream `header(len xs) ++ blocks(xs)` and truncating
to the header value recovers `xs`. -/
theorem decode_of_encode {xs : List Nat} (hlen : xs.length < 2 ^ 32) :
    (decompressLoop (u32_le xs.length ++ compressBlocks xs.length xs).length
        ((u32_le xs.length ++ compressBlocks xs.length xs).drop 4)).take
      (packNat 8 ((u32_le xs.length ++ compressBlocks xs.length xs).take 4)) = xs := by
  have h4 := u32_le_length xs.length
  rw [List.take_append_of_le_length (by omega), List.drop_append_eq_append_drop]
  have hd4 : (u32_le xs.length).drop 4 = [] := List.drop_eq_nil_of_le (by omega)
  rw [hd4, List.nil_append]
  have htake : (u32_le xs.length).take 4 = u32_le xs.length :=
    List.take_of_length_le (by omega)
  rw [htake, u32_le_roundtrip hlen]
  have h40 : (4 : Nat) - (u32_le xs.length).length = 0 := by omega
  rw [h40, List.drop_zero]
  obtain ⟨m, hm⟩ := compressBlocks_decompressLoop xs.length xs
    (u32_le xs.length ++ compressBlocks xs.length xs).length (Nat.le_refl _)
    (by simp [List.length_append, h4])
  rw [hm, List.take_append_of_le_length (Nat.le_refl _), List.take_length]

/-- `decompress(mode, compress(mode, P)) = P` for valid permutations (any
mode), with the compressed stream exposed. -/
theorem compress_roundtrip (cmode : CompressionMode) {p : List Nat}
    (hp : ValidPerm p) (hlen : p.length < 2 ^ 32) :
    ∃ c, compress_permutation cmode p = some c ∧
      decompress_permutation cmode c = some p := by
  cases cmode with
  | Fast =>
    refine ⟨u32_le p.length ++ compressBlocks p.length p, ?_, ?_⟩
    · rfl
    · unfold decompress_permutation
      rw [if_neg (by simp)]
      rw [decode_of_encode hlen]
  | Slow =>
    obtain ⟨l, hl, hlenl, hinvrt⟩ := perm_to_lehmer_round hp
    refine ⟨u32_le l.length ++ compressBlocks l.length l, ?_, ?_⟩
    · unfold compress_permutation
      rw [if_pos rfl, hl]
    · unfold decompress_permutation
      rw [if_pos rfl, decode_of_encode (by omega)]
      exact hinvrt

/-- Splitting an interval extraction at a block boundary: extracting the
absolute window `[lo, hi)` from content starting at absolute position
`base` whose first `L` entries are `blk`. -/
theorem extract_append (blk C : List Nat) (L base lo hi : Nat)
    (hb : blk.length = L) (hlohi : lo ≤ hi) :
    ((blk ++ C).drop (lo - base)).take (hi - max lo base)
      = (blk.drop (lo - base)).take (min (hi - base) L - (lo - base))
        ++ (C.drop (lo - (base + L))).take (hi - max lo (base + L)) := by
  rw [List.drop_append_eq_append_drop, List.take_append_eq_append_take]
  have hlen : (blk.drop (lo - base)).length = L - (lo - base) := by
    simp [hb]
  have harg1 : lo - base - blk.length = lo - (base + L) := by
    rw [hb]
    omega
  have harg2 : hi - max lo base - (blk.drop (lo - base)).length
      = hi - max lo (base + L) := by
    rw [hlen]
    omega
  rw [harg1, harg2]
  congr 1
  rw [List.take_eq_take, hlen]
  omega

/-- The Fast-path range loop over a compressed block stream returns exactly
the extraction of the absolute window `[lo, hi)` from the zero-padded
content, for any starting block index `cb` (the content starts at absolute
position `cb * BLOCK_LEN`). -/
theorem rangeLoop_spec :
    ∀ cfuel xs dfuel cb lo hi,
      xs.length ≤ cfuel →
      (compressBlocks cfuel xs).length ≤ dfuel →
      lo ≤ hi →
      ∃ pad, rangeLoop lo hi dfuel (compressBlocks cfuel xs) cb
        = some (((xs ++ List.replicate pad 0).drop (lo - cb * BLOCK_LEN)).take
            (hi - max lo (cb * BLOCK_LEN))) := by
  intro cfuel
  induction cfuel with
  | zero =>
    intro xs dfuel cb lo hi hx _ _
    have hnil : xs = [] := List.eq_nil_of_length_eq_zero (by omega)
    subst hnil
    refine ⟨0, ?_⟩
    cases dfuel <;> simp [compressBlocks, rangeLoop]
  | succ cfuel ih =>
    intro xs dfuel cb lo hi hx hd hlohi
    cases xs with
    | nil =>
      refine ⟨0, ?_⟩
      cases dfuel <;> simp [compressBlocks, rangeLoop]
    | cons y ys =>
      have hBL : BLOCK_LEN = 128 := rfl
      have hmul : (cb + 1) * BLOCK_LEN = cb * BLOCK_LEN + BLOCK_LEN := by ring
      have hstream : compressBlocks (cfuel + 1) (y :: ys)
          = num_bits (padBlock (y :: ys))
            :: (packer_compress (num_bits (padBlock (y :: ys))) (padBlock (y :: ys))
              ++ compressBlocks cfuel ((y :: ys).drop BLOCK_LEN)) := rfl
      have hpl : (packer_compress (num_bits (padBlock (y :: ys)))
          (padBlock (y :: ys))).length = 16 * num_bits (padBlock (y :: ys)) :=
        length_unpackVals 8 _ _
      rw [hstream] at hd ⊢
      cases dfuel with
      | zero => simp at hd
      | succ d =>
        have hrecx : ((y :: ys).drop BLOCK_LEN).length ≤ cfuel := by
          simp only [List.length_drop, List.length_cons]
          simp only [List.length_cons] at hx
          omega
        have hrecd : (compressBlocks cfuel ((y :: ys).drop BLOCK_LEN)).length ≤ d := by
          simp only [List.length_cons, List.length_append, hpl] at hd
          omega
        obtain ⟨pad', hrec⟩ := ih ((y :: ys).drop BLOCK_LEN) d (cb + 1) lo hi hrecx hrecd hlohi
        have hcontent : ∃ padT, padBlock (y :: ys)
            ++ ((y :: ys).drop BLOCK_LEN ++ List.replicate pad' 0)
            = (y :: ys) ++ List.replicate padT 0 := by
          rcases le_or_lt BLOCK_LEN (y :: ys).length with h | h
          · refine ⟨pad', ?_⟩
            rw [padBlock_of_le h, ← List.append_assoc, List.take_append_drop]
          · refine ⟨BLOCK_LEN - (y :: ys).length + pad', ?_⟩
            rw [padBlock_of_lt h, List.drop_eq_nil_of_le (le_of_lt h)]
            simp [List.append_assoc]
        obtain ⟨padT, hcontent⟩ := hcontent
        refine ⟨padT, ?_⟩
        simp only [rangeLoop]
        rw [List.take_left' hpl, List.drop_left' hpl,
          packer_roundtrip _ _ (padBlock_length (y :: ys)) (num_bits_spec _)]
        by_cases hwin : lo / BLOCK_LEN ≤ cb ∧ cb ≤ hi / BLOCK_LEN
        · obtain ⟨hwa, hwb⟩ := hwin
          have hw1 : lo < cb * BLOCK_LEN + BLOCK_LEN := by
            rw [hBL] at hwa ⊢
            omega
          have hw2 : cb * BLOCK_LEN ≤ hi := by
            rw [hBL] at hwb ⊢
            omega
          have hrs : (if lo > cb * BLOCK_LEN then lo - cb * BLOCK_LEN else 0)
              = lo - cb * BLOCK_LEN := by
            split <;> omega
          have hre : (if hi < cb * BLOCK_LEN + BLOCK_LEN then hi - cb * BLOCK_LEN
              else BLOCK_LEN) = min (hi - cb * BLOCK_LEN) BLOCK_LEN := by
            split <;> omega
          have hcond : (if lo > cb * BLOCK_LEN then lo - cb * BLOCK_LEN else 0)
              ≤ (if hi < cb * BLOCK_LEN + BLOCK_LEN then hi - cb * BLOCK_LEN
                  else BLOCK_LEN) := by
            rw [hrs, hre]
            omega
          rw [if_pos ⟨hwa, hwb⟩, if_pos hcond]
          simp only [hrec]
          rw [hrs, hre, ← hcontent,
            extract_append (padBlock (y :: ys)) _ BLOCK_LEN (cb * BLOCK_LEN) lo hi
              (padBlock_length (y :: ys)) hlohi, ← hmul]
        · rw [if_neg hwin]
          simp only [hrec]
          have hfirst : ((padBlock (y :: ys)).drop (lo - cb * BLOCK_LEN)).take
              (min (hi - cb * BLOCK_LEN) BLOCK_LEN - (lo - cb * BLOCK_LEN)) = [] := by
            rcases not_and_or.mp hwin with h | h
            · have hlt : BLOCK_LEN ≤ lo - cb * BLOCK_LEN := by
                rw [hBL] at h ⊢
                omega
              rw [List.drop_eq_nil_of_le (by rw [padBlock_length]; exact hlt),
                List.take_nil]
            · have hz : min (hi - cb * BLOCK_LEN) BLOCK_LEN - (lo - cb * BLOCK_LEN) = 0 := by
                rw [hBL] at h ⊢
                omega
              rw [hz, List.take_zero]
          rw [← hcontent,
            extract_append (padBlock (y :: ys)) _ BLOCK_LEN (cb * BLOCK_LEN) lo hi
              (padBlock_length (y :: ys)) hlohi, ← hmul, hfirst, List.nil_append]

/-- Fast-mode range decode of a compressed stream equals the slice of the
original sequence when `lo ≤ hi ≤ N`. -/
theorem range_decode_eq {xs : List Nat} {lo hi : Nat} (hlohi : lo ≤ hi)
    (hhi : hi ≤ xs.length) :
    decompress_permutation_range CompressionMode.Fast
      (u32_le xs.length ++ compressBlocks xs.length xs) lo hi
      = some ((xs.drop lo).take (hi - lo)) := by
  unfold decompress_permutation_range
  rw [if_neg (by simp)]
  have h4 := u32_le_length xs.length
  rw [List.drop_append_eq_append_drop, List.drop_eq_nil_of_le (by omega), List.nil_append]
  have h40 : (4 : Nat) - (u32_le xs.length).length = 0 := by omega
  rw [h40, List.drop_zero]
  obtain ⟨pad, hpad⟩ := rangeLoop_spec xs.length xs
    (u32_le xs.length ++ compressBlocks xs.length xs).length 0 lo hi
    (Nat.le_refl _) (by simp [List.length_append, h4]) hlohi
  rw [hpad]
  congr 1
  simp only [Nat.zero_mul, Nat.sub_zero, Nat.max_zero]
  rw [List.drop_append_eq_append_drop, List.take_append_eq_append_take]
  have hc0 : hi - lo - ((xs.drop lo).length) = 0 := by
    simp only [List.length_drop]
    omega
  rw [hc0, List.take_zero, List.append_nil]

/-- Runs a sequence of `set_kth_unset_bit` calls, collecting the returned
indices and the final state (the call pattern of the spec's "LR selection"
scenario and of `lr_array.rs`'s `test_set_kth_unset_bit`). -/
def set_kth_run (a : LRArray) : List Nat → Option (List Nat × LRArray)
  | [] => some ([], a)
  | k :: ks =>
    match a.set_kth_unset_bit k with
    | none => none
    | some (i, a') =>
      match set_kth_run a' ks with
      | none => none
      | some (is, af) => some (i :: is, af)

/-- C1: for both modes and every valid permutation `P` of `{0,…,N−1}` (with
`N` a `u32`), decompressing the output of compression returns the original
permutation: `decompress_permutation (mode, compress_permutation (mode, P)) = P`. -/
theorem c1_compress_decompress_id (cmode : CompressionMode) {p : List Nat}
    (hp : ValidPerm p) (hlen : p.length < 2 ^ 32) :
    (compress_permutation cmode p).bind (decompress_permutation cmode) = some p := by
  obtain ⟨c, hc, hd⟩ := compress_roundtrip cmode hp hlen
  rw [hc]
  exact hd

theorem c1_witness :
    ValidPerm [1, 0, 2] ∧ [1, 0, 2].length < 2 ^ 32 ∧
    (compress_permutation CompressionMode.Slow [1, 0, 2]).bind
      (decompress_permutation CompressionMode.Slow) = some [1, 0, 2] :=
  ⟨by decide, by decide,
    c1_compress_decompress_id CompressionMode.Slow (by decide) (by decide)⟩

/-- C2: the Lehmer transform round-trips in both directions —
`lehmer_to_perm (perm_to_lehmer P) = P` for every valid permutation `P`,
and `perm_to_lehmer (lehmer_to_perm L) = L` for every valid Lehmer code
`L` (`L[i] ∈ {0,…,N−1−i}`). -/
theorem c2_lehmer_roundtrip {p l : List Nat} (hp : ValidPerm p) (hl : ValidLehmer l) :
    (perm_to_lehmer p).bind lehmer_to_perm = some p ∧
    (lehmer_to_perm l).bind perm_to_lehmer = some l := by
  constructor
  · obtain ⟨l', hl', _, hrt⟩ := perm_to_lehmer_round hp
    rw [hl']
    exact hrt
  · obtain ⟨p', hp', _, _, hrt⟩ := lehmer_to_perm_round hl
    rw [hp']
    exact hrt

theorem c2_witness :
    ValidPerm [1, 5, 0, 6, 3, 4, 2] ∧ ValidLehmer [1, 4, 0, 3, 1, 1, 0] ∧
    ((perm_to_lehmer [1, 5, 0, 6, 3, 4, 2]).bind lehmer_to_perm
        = some [1, 5, 0, 6, 3, 4, 2] ∧
      (lehmer_to_perm [1, 4, 0, 3, 1, 1, 0]).bind perm_to_lehmer
        = some [1, 4, 0, 3, 1, 1, 0]) :=
  ⟨by decide, by decide, c2_lehmer_roundtrip (by decide) (by decide)⟩

/-- C4: on every reachable LRArray state, `unset_before n` returns the
number of unset bits of `V` at indices `[0, n)` (which only exist below
`total_bits`), and whenever `n ≥ total_bits` it returns `unset_bits()`. -/
theorem c4_unset_before_correct {a : LRArray} (h : Reachable a) :
    (∀ n, a.unset_before n = countB a.vals false 0 (min n a.total_bits)) ∧
    (∀ n, a.total_bits ≤ n → a.unset_before n = a.unset_bits) := by
  have hinv := Reachable_LRInv h
  refine ⟨fun n => unset_before_spec hinv n, fun n hn => ?_⟩
  unfold LRArray.unset_before
  rw [if_pos hn]

theorem c4_witness :
    (LRArray.new 50).unset_before 7
      = countB (LRArray.new 50).vals false 0 (min 7 (LRArray.new 50).total_bits) :=
  (c4_unset_before_correct (Reachable.new 50)).1 7

/-- C5: every reachable LRArray state satisfies the counter invariants —
`total_set_bits = popcount(V) = F[0]`, and every segment-tree node's
counter equals the popcount of `V` over that node's subrange (`fInv`). -/
theorem c5_counter_invariants {a : LRArray} (h : Reachable a) :
    a.total_set_bits = countB a.vals true 0 a.total_bits ∧
    a.f 0 = countB a.vals true 0 a.total_bits ∧
    fInv a.vals a.f a.total_bits 0 a.total_bits a.total_bits 0 := by
  have hinv := Reachable_LRInv h
  exact ⟨hinv.1, (fInv_node hinv.2).2.2, hinv.2⟩

theorem c5_witness :
    (LRArray.new 5).total_set_bits
      = countB (LRArray.new 5).vals true 0 (LRArray.new 5).total_bits :=
  (c5_counter_invariants (Reachable.new 5)).1

/-- C6: on every reachable state, `set_kth_unset_bit k` fails (panics) if
and only if `k ≥ unset_bits()`; otherwise it returns the index `i` with
exactly `k` unset bits strictly before `i` and an unset bit at `i`, and
sets that bit. -/
theorem c6_set_kth_unset_bit_correct {a : LRArray} (h : Reachable a) (k : Nat) :
    (a.set_kth_unset_bit k = none ↔ a.unset_bits ≤ k) ∧
    (∀ i a', a.set_kth_unset_bit k = some (i, a') →
      countB a.vals false 0 i = k ∧ a.vals i = false ∧ i < a.total_bits ∧
      (∀ j, a'.vals j = if j = i then true else a.vals j)) := by
  have hinv := Reachable_LRInv h
  constructor
  · constructor
    · intro hnone
      by_contra hk
      obtain ⟨i, a', heq, _⟩ := set_kth_unset_bit_spec hinv (show k < _ by omega)
      rw [heq] at hnone
      simp at hnone
    · exact set_kth_unset_bit_none
  · intro i a' heq2
    by_cases hk : a.unset_bits ≤ k
    · rw [set_kth_unset_bit_none hk] at heq2
      simp at heq2
    · obtain ⟨i', a'', heq, hlt, hv, hc, _, _, _, hvals⟩ :=
        set_kth_unset_bit_spec hinv (show k < _ by omega)
      rw [heq] at heq2
      simp at heq2
      obtain ⟨h1, h2⟩ := heq2
      subst h1
      subst h2
      exact ⟨hc, hv, hlt, hvals⟩

theorem c6_witness :
    (LRArray.new 5).set_kth_unset_bit 7 = none ↔ (LRArray.new 5).unset_bits ≤ 7 :=
  (c6_set_kth_unset_bit_correct (Reachable.new 5) 7).1

/-- C3: Fast-mode range decompression of a Fast-mode compressed valid
permutation equals the corresponding slice `P[lo..hi]`, for every
`0 ≤ lo ≤ hi ≤ N`. -/
theorem c3_fast_range_decode {p : List Nat} {lo hi : Nat} (hp : ValidPerm p)
    (hlen : p.length < 2 ^ 32) (hlohi : lo ≤ hi) (hhi : hi ≤ p.length) :
    (compress_permutation CompressionMode.Fast p).bind
      (fun c => decompress_permutation_range CompressionMode.Fast c lo hi)
      = some ((p.drop lo).take (hi - lo)) := by
  have hc : compress_permutation CompressionMode.Fast p
      = some (u32_le p.length ++ compressBlocks p.length p) := rfl
  rw [hc]
  exact range_decode_eq hlohi hhi

theorem c3_witness :
    ValidPerm [0, 1, 2] ∧ ([0, 1, 2] : List Nat).length < 2 ^ 32 ∧ 1 ≤ 3 ∧
    3 ≤ ([0, 1, 2] : List Nat).length ∧
    (compress_permutation CompressionMode.Fast [0, 1, 2]).bind
      (fun c => decompress_permutation_range CompressionMode.Fast c 1 3)
      = some ((([0, 1, 2] : List Nat).drop 1).take (3 - 1)) :=
  ⟨by decide, by decide, by decide, by decide,
    c3_fast_range_decode (by decide) (by decide) (by decide) (by decide)⟩

/-- A Fast-mode range request with `lo ≤ hi` on a compressed stream never
fails, whatever `hi` is. -/
theorem range_fast_some {xs : List Nat} {lo hi : Nat} (hlohi : lo ≤ hi) :
    ∃ r, decompress_permutation_range CompressionMode.Fast
      (u32_le xs.length ++ compressBlocks xs.length xs) lo hi = some r := by
  unfold decompress_permutation_range
  rw [if_neg (by simp)]
  have h4 := u32_le_length xs.length
  rw [List.drop_append_eq_append_drop, List.drop_eq_nil_of_le (by omega), List.nil_append]
  have h40 : (4 : Nat) - (u32_le xs.length).length = 0 := by omega
  rw [h40, List.drop_zero]
  obtain ⟨pad, hpad⟩ := rangeLoop_spec xs.length xs
    (u32_le xs.length ++ compressBlocks xs.length xs).length 0 lo hi
    (Nat.le_refl _) (by simp [List.length_append, h4]) hlohi
  exact ⟨_, hpad⟩

/-- C7 (amended): range decoding of a compressed valid permutation fails
with the range error exactly when `hi > N` or `lo > hi` in Slow mode only;
in Fast mode a request with `lo ≤ hi` never fails, even when `hi > N` —
the call silently returns the available (zero-padded) data. -/
theorem c7_range_error_amended {p : List Nat} (hp : ValidPerm p)
    (hlen : p.length < 2 ^ 32) (lo hi : Nat) :
    (∀ c, compress_permutation CompressionMode.Slow p = some c →
      (decompress_permutation_range CompressionMode.Slow c lo hi = none
        ↔ (p.length < hi ∨ hi < lo))) ∧
    (∀ c, compress_permutation CompressionMode.Fast p = some c → lo ≤ hi →
      ∃ r, decompress_permutation_range CompressionMode.Fast c lo hi = some r) := by
  constructor
  · intro c hc
    obtain ⟨c', hc', hd⟩ := compress_roundtrip CompressionMode.Slow hp hlen
    have hcc : c = c' := Option.some.inj (hc.symm.trans hc')
    subst hcc
    unfold decompress_permutation_range
    rw [if_pos rfl]
    simp only [hd]
    by_cases hcond : lo ≤ hi ∧ hi ≤ p.length
    · rw [if_pos hcond]
      constructor
      · intro hcontra
        simp at hcontra
      · intro hcontra
        exfalso
        omega
    · rw [if_neg hcond]
      constructor
      · intro _
        by_contra hcontra
        push_neg at hcontra
        exact hcond ⟨by omega, by omega⟩
      · intro _
        rfl
  · intro c hc hlohi
    have hcf : compress_permutation CompressionMode.Fast p
        = some (u32_le p.length ++ compressBlocks p.length p) := rfl
    have hcc : c = u32_le p.length ++ compressBlocks p.length p :=
      Option.some.inj (hc.symm.trans hcf)
    subst hcc
    exact range_fast_some hlohi

theorem c7_witness :
    ValidPerm [0, 1, 2] ∧ ([0, 1, 2] : List Nat).length < 2 ^ 32 ∧
    ((∀ c, compress_permutation CompressionMode.Slow [0, 1, 2] = some c →
        (decompress_permutation_range CompressionMode.Slow c 0 2 = none
          ↔ (([0, 1, 2] : List Nat).length < 2 ∨ 2 < 0))) ∧
      (∀ c, compress_permutation CompressionMode.Fast [0, 1, 2] = some c → 0 ≤ 2 →
        ∃ r, decompress_permutation_range CompressionMode.Fast c 0 2 = some r)) :=
  ⟨by decide, by decide, c7_range_error_amended (by decide) (by decide) 0 2⟩

/-- C7 counterexample: the claim "fails whenever hi > N" is false for Fast
mode — for the valid 5-element permutation `[0,1,2,3,4]` the range request
`0..10` has `hi = 10 > N = 5` yet does not fail: it returns the decoded
block data padded with zeros. -/
theorem c7_counterexample :
    (compress_permutation CompressionMode.Fast [0, 1, 2, 3, 4]).bind
      (fun c => decompress_permutation_range CompressionMode.Fast c 0 10)
      = some [0, 1, 2, 3, 4, 0, 0, 0, 0, 0] := by
  decide

/-- C8 (amended): `compress_permutation` allocates its output buffer with
exactly `4 + max(N,B)·4 + ⌊max(N,B)/B⌋` bytes (src/lib.rs:39-40), which is
at least `4 + max(N,B)·4 + ⌈max(N,B)/B⌉ − 1` — one byte less than the
claimed ceiling-based lower bound when `B ∤ N` and `N > B`. -/
theorem c8_alloc_amended (n : Nat) :
    compress_alloc_len n = 4 + max n BLOCK_LEN * 4 + max n BLOCK_LEN / BLOCK_LEN ∧
    4 + max n BLOCK_LEN * 4 + (max n BLOCK_LEN + BLOCK_LEN - 1) / BLOCK_LEN - 1
      ≤ compress_alloc_len n := by
  refine ⟨rfl, ?_⟩
  unfold compress_alloc_len
  have hBL : BLOCK_LEN = 128 := rfl
  rw [hBL]
  omega

/-- C8 counterexample: for `N = 129` the buffer is allocated with
`compress_alloc_len 129 = 521` bytes, strictly less than the claimed lower
bound `4 + max(129,B)·4 + ⌈max(129,B)/B⌉ = 522`. -/
theorem c8_counterexample :
    compress_alloc_len 129
      < 4 + max 129 BLOCK_LEN * 4 + (max 129 BLOCK_LEN + BLOCK_LEN - 1) / BLOCK_LEN := by
  decide

/-- C9 counterexample: the spec's "LR selection" scenario is wrong about
the final rank query — after the six `set_kth_unset_bit` calls the set
bits are `{0, 4, 5, 6, 8, 30}`, so the unset bits before index 5 are
`{1, 2, 3}` and `unset_before 5` returns `3`, not `1`. -/
theorem c9_counterexample :
    (set_kth_run (LRArray.new 50) [4, 4, 4, 0, 4, 25]).map
      (fun r => (r.1, r.2.unset_before 5)) ≠ some ([4, 5, 6, 0, 8, 30], 1) := by
  decide

/-- C9 (amended): on a fresh `LRArray(50)`, successive `set_kth_unset_bit`
calls with arguments `4, 4, 4, 0, 4, 25` return `4, 5, 6, 0, 8, 30`
respectively, and after those six calls `unset_before 5` returns `3`. -/
theorem c9_lr_selection :
    (set_kth_run (LRArray.new 50) [4, 4, 4, 0, 4, 25]).map
      (fun r => (r.1, r.2.unset_before 5)) = some ([4, 5, 6, 0, 8, 30], 3) := by
  decide

/-- C10: compressing the empty permutation yields exactly the 4-byte
little-endian zero header (total length 4, no blocks) in both modes, and
decompressing that 4-byte buffer yields the empty permutation in both
modes. -/
theorem c10_empty_permutation :
    compress_permutation CompressionMode.Fast [] = some [0, 0, 0, 0] ∧
    compress_permutation CompressionMode.Slow [] = some [0, 0, 0, 0] ∧
    decompress_permutation CompressionMode.Fast [0, 0, 0, 0] = some [] ∧
    decompress_permutation CompressionMode.Slow [0, 0, 0, 0] = some [] := by
  decide
